import Mathlib

/-!
# Verification of the `config` package's value-tree core

This file gives a shallow embedding of the Go package `config`
(value tree, path resolver, merge engine, scalar coercion layer,
struct binder, validation rules) and proves/refutes the frozen claims
about it.

Modelling conventions:
* Go's dynamic `any` values are the inductive `GoVal`.  The variants mirror
  the concrete Go types the source code switches on: `nil`, `bool`, `int`,
  `int64`, `uint64`, `float64`, `string`, `[]any`, `[]string`,
  `map[string]any` and `map[any]any`.
* Go maps are reference types; a heap write through one alias is visible
  through every alias.  We model object identity by tagging every map node
  with a `Nat` id.  A heap write to the map with id `a` is the function
  `mutVal a f g`, which rewrites the contents of every map node carrying
  id `a` (all aliases of one object share the id).  Fresh allocation is
  modelled by threading a counter: ids `≥ n` are unallocated when the
  counter is `n`.
* `map[string]any` / `map[any]any` are association lists `GoFields` /
  `GoAFields`.  Go map iteration order is unspecified; every claim below is
  either stated through key lookup (order-insensitive) or on concrete
  inputs where the list order realises one admissible iteration order.
* Machine integers are unbounded `Int`/`Nat` with the range checks the
  source performs written out explicitly (64-bit platform: `int` = 64 bits).
* `float64` values are modelled as exact rationals (`Rat`).  Every float
  comparison the claims depend on involves only exactly-representable
  doubles, so exact rational arithmetic coincides with IEEE arithmetic
  there.  A Go conversion of an out-of-range `float64` to an integer type
  is implementation-dependent by the Go spec; we model the amd64 behaviour
  (`CVTTSD2SI`, which yields `math.MinInt64`).
-/

set_option autoImplicit false

/-- A `map[any]any` key as produced by YAML parsers: either a string key or
a non-string (here: integer) key. -/
inductive GoKey : Type where
  | kstr (s : String)
  | kint (n : Int)
  deriving DecidableEq, Repr

mutual

/-- A Go `any` value as stored in the configuration tree. -/
inductive GoVal : Type where
  | vnull
  | vbool (b : Bool)
  | vint (n : Int)
  | vint64 (n : Int)
  | vuint64 (n : Nat)
  | vfloat (q : Rat)
  | vstr (s : String)
  | varr (xs : GoList)
  | vstrarr (xs : List String)
  | vmap (id : Nat) (m : GoFields)
  | vanymap (id : Nat) (m : GoAFields)

/-- A Go `[]any`. -/
inductive GoList : Type where
  | nil
  | cons (v : GoVal) (tl : GoList)

/-- A Go `map[string]any`, as an association list. -/
inductive GoFields : Type where
  | nil
  | cons (k : String) (v : GoVal) (tl : GoFields)

/-- A Go `map[any]any`, as an association list. -/
inductive GoAFields : Type where
  | nil
  | cons (k : GoKey) (v : GoVal) (tl : GoAFields)

end

deriving instance DecidableEq for Except
deriving instance DecidableEq for GoVal
deriving instance DecidableEq for GoList
deriving instance DecidableEq for GoFields
deriving instance DecidableEq for GoAFields

/-- Lookup in a `map[string]any` (first matching key). -/
def fieldsGet : GoFields → String → Option GoVal
  | .nil, _ => none
  | .cons k' v tl, k => if k' = k then some v else fieldsGet tl k

/-- `m[k] = v` on a `map[string]any`: replace the binding if the key is
present, otherwise add it. -/
def fieldsSet : GoFields → String → GoVal → GoFields
  | .nil, k, v => .cons k v .nil
  | .cons k' v' tl, k, v =>
      if k' = k then .cons k' v tl else .cons k' v' (fieldsSet tl k v)

/-- The keys of a `map[string]any`. -/
def fieldsKeys : GoFields → List String
  | .nil => []
  | .cons k _ tl => k :: fieldsKeys tl

/-- Lookup of a *string* key in a `map[any]any` (`cur[k]` with `k : string`
matches exactly the entries whose `any` key boxes that string). -/
def afieldsGetStr : GoAFields → String → Option GoVal
  | .nil, _ => none
  | .cons (.kstr k') v tl, k => if k' = k then some v else afieldsGetStr tl k
  | .cons (.kint _) _ tl, k => afieldsGetStr tl k

/-- Path resolution, inner loop of `Config.find`: walk the already-split
segments.  At each step a `nil` current node fails, a `map[string]any` or
`map[any]any` is looked into, and every other value fails (the `default`
branch). -/
def findSegs : GoVal → List String → Option GoVal
  | cur, [] => some cur
  | .vnull, _ :: _ => none
  | .vmap _ m, k :: tl =>
      match fieldsGet m k with
      | some nxt => findSegs nxt tl
      | none => none
  | .vanymap _ m, k :: tl =>
      match afieldsGetStr m k with
      | some nxt => findSegs nxt tl
      | none => none
  | _, _ :: _ => none

mutual

/-- `mergeMaps(dst, src)`: fold the entries of `src` into `dst`.  The Go
function mutates `dst` in place; the result value is returned here.  The
recursive-merge case keeps the destination map object (its id). -/
def mergeMaps : GoFields → GoFields → GoFields
  | dst, .nil => dst
  | dst, .cons k v tl => mergeMaps (mergeOne dst k v) tl

/-- One iteration of the `mergeMaps` loop body for the entry `(k, v)`. -/
def mergeOne (dst : GoFields) (k : String) (v : GoVal) : GoFields :=
  match v with
  | .vmap _ sm =>
      match fieldsGet dst k with
      | some (.vmap did dm) => fieldsSet dst k (.vmap did (mergeMaps dm sm))
      | _ => fieldsSet dst k v
  | _ => fieldsSet dst k v

end

mutual

/-- `deepCopyValue`: recursively copies `map[string]any`, `[]any` and
`[]string`; every other value — scalars, but also `map[any]any` — falls into
the `default` branch and is returned as-is (for reference types this means
the copy aliases the original object).  Freshly allocated maps receive
fresh ids from the threaded counter. -/
def deepCopyValue : GoVal → Nat → GoVal × Nat
  | .vmap _ m, n => let p := deepCopyFields m (n + 1); (.vmap n p.1, p.2)
  | .varr xs, n => let p := deepCopyList xs n; (.varr p.1, p.2)
  | .vstrarr xs, n => (.vstrarr xs, n)
  | v, n => (v, n)

/-- Element-wise deep copy of a `[]any`. -/
def deepCopyList : GoList → Nat → GoList × Nat
  | .nil, n => (.nil, n)
  | .cons v tl, n =>
      let p := deepCopyValue v n
      let q := deepCopyList tl p.2
      (.cons p.1 q.1, q.2)

/-- `deepCopyMap`: a fresh map whose entries are deep copies (the fresh
map's own id is allocated by the caller). -/
def deepCopyFields : GoFields → Nat → GoFields × Nat
  | .nil, n => (.nil, n)
  | .cons k v tl, n =>
      let p := deepCopyValue v n
      let q := deepCopyFields tl p.2
      (.cons k p.1 q.1, q.2)

end

/-- `fmt.Sprintf("%v", k)` on a `map[any]any` key. -/
def goRenderKey : GoKey → String
  | .kstr s => s
  | .kint n => toString n

mutual

/-- `normalizeValue`: a `map[any]any` becomes a fresh `map[string]any` with
stringified keys, a `map[string]any` is rebuilt fresh (`normalizeMap`), a
`[]any` is rebuilt element-wise, anything else is returned as-is. -/
def normalizeValue : GoVal → Nat → GoVal × Nat
  | .vanymap _ m, n => let p := normalizeAFields m (n + 1); (.vmap n p.1, p.2)
  | .vmap _ m, n => let p := normalizeFields m (n + 1); (.vmap n p.1, p.2)
  | .varr xs, n => let p := normalizeList xs n; (.varr p.1, p.2)
  | v, n => (v, n)

/-- Entry-wise normalization of a `map[string]any` (body of
`normalizeMap`). -/
def normalizeFields : GoFields → Nat → GoFields × Nat
  | .nil, n => (.nil, n)
  | .cons k v tl, n =>
      let p := normalizeValue v n
      let q := normalizeFields tl p.2
      (.cons k p.1 q.1, q.2)

/-- Normalization of a `map[any]any` into a `map[string]any`: each key is
rendered with `fmt.Sprintf("%v", k)`. -/
def normalizeAFields : GoAFields → Nat → GoFields × Nat
  | .nil, n => (.nil, n)
  | .cons k v tl, n =>
      let p := normalizeValue v n
      let q := normalizeAFields tl p.2
      (.cons (goRenderKey k) p.1 q.1, q.2)

/-- Element-wise normalization of a `[]any`. -/
def normalizeList : GoList → Nat → GoList × Nat
  | .nil, n => (.nil, n)
  | .cons v tl, n =>
      let p := normalizeValue v n
      let q := normalizeList tl p.2
      (.cons p.1 q.1, q.2)

end

/-- `normalizeMap`: normalize every entry of a `map[string]any`. -/
def normalizeMap (m : GoFields) (n : Nat) : GoFields × Nat :=
  normalizeFields m n

/-- Character-level loop of `strings.Split(s, ".")`. -/
def splitDotAux : List Char → List Char → List String
  | [], acc => [String.mk acc.reverse]
  | c :: cs, acc =>
      if c = '.' then String.mk acc.reverse :: splitDotAux cs []
      else splitDotAux cs (c :: acc)

/-- `strings.Split(s, ".")`: the dot-separated segments (at least one,
possibly empty). -/
def goSplitDot (s : String) : List String :=
  splitDotAux s.data []

/-- Character-level loop of `strings.Split` for an arbitrary nonempty
separator `s0 :: srest`, scanning left to right for non-overlapping
occurrences.  The fuel argument (initially the string length) only makes
the recursion structural; it never runs out. -/
def splitSepAux (s0 : Char) (srest : List Char) :
    Nat → List Char → List Char → List String
  | 0, _, acc => [String.mk acc.reverse]
  | _ + 1, [], acc => [String.mk acc.reverse]
  | fuel + 1, c :: cs, acc =>
      if c = s0 ∧ srest.isPrefixOf cs then
        String.mk acc.reverse :: splitSepAux s0 srest fuel (cs.drop srest.length) []
      else splitSepAux s0 srest fuel cs (c :: acc)

/-- `strings.Split(s, sep)`.  (For `sep = ""` Go splits into runes; that
case is not modelled — no claim reaches it.) -/
def goSplitSep (s sep : String) : List String :=
  match sep.data with
  | [] => [s]
  | s0 :: srest => splitSepAux s0 srest s.data.length s.data []

/-- `strings.ToLower` (ASCII case folding suffices here). -/
def goToLower (s : String) : String :=
  String.mk (s.data.map Char.toLower)

/-- `strings.TrimSpace`: drop leading and trailing whitespace. -/
def goTrimSpace (s : String) : String :=
  String.mk
    (((s.data.dropWhile Char.isWhitespace).reverse.dropWhile
      Char.isWhitespace).reverse)

/-- Inner loop of `setNested` on already-split segments: walk/create
intermediate maps; a non-map intermediate value is silently replaced by a
fresh map. -/
def setNestedSegs : GoFields → List String → GoVal → Nat → GoFields × Nat
  | m, [], _, n => (m, n)
  | m, [k], v, n => (fieldsSet m k v, n)
  | m, k :: tl, v, n =>
      match fieldsGet m k with
      | some (.vmap id sub) =>
          let p := setNestedSegs sub tl v n
          (fieldsSet m k (.vmap id p.1), p.2)
      | _ =>
          let p := setNestedSegs .nil tl v (n + 1)
          (fieldsSet m k (.vmap n p.1), p.2)

/-- `setNested(m, key, value)`: split the dotted key and store the value,
creating intermediate maps as needed. -/
def setNested (m : GoFields) (key : String) (v : GoVal) (n : Nat) :
    GoFields × Nat :=
  setNestedSegs m (goSplitDot key) v n

/-- Loop of `expandDotKeys` over the flat entries. -/
def expandDotKeysAux : GoFields → List (String × GoVal) → Nat → GoFields × Nat
  | acc, [], n => (acc, n)
  | acc, (k, v) :: tl, n =>
      let p := setNested acc k v n
      expandDotKeysAux p.1 tl p.2

/-- `expandDotKeys(flat)`: build a nested map from dotted keys.  (The Go
function's fresh output map itself never becomes a tree node — `mergeMaps`
copies its entries — so no id is allocated for it here.) -/
def expandDotKeys (flat : List (String × GoVal)) (n : Nat) : GoFields × Nat :=
  expandDotKeysAux .nil flat n

mutual

/-- The ids of all map objects (`map[string]any` and `map[any]any`)
reachable inside a value. -/
def idsVal : GoVal → List Nat
  | .vmap id m => id :: idsFields m
  | .vanymap id m => id :: idsAFields m
  | .varr xs => idsList xs
  | _ => []

/-- Map ids reachable inside a `[]any`. -/
def idsList : GoList → List Nat
  | .nil => []
  | .cons v tl => idsVal v ++ idsList tl

/-- Map ids reachable inside a `map[string]any`'s entries. -/
def idsFields : GoFields → List Nat
  | .nil => []
  | .cons _ v tl => idsVal v ++ idsFields tl

/-- Map ids reachable inside a `map[any]any`'s entries. -/
def idsAFields : GoAFields → List Nat
  | .nil => []
  | .cons _ v tl => idsVal v ++ idsAFields tl

end

mutual

/-- A heap write to the map object with id `a`: the contents of every map
node carrying id `a` (i.e. every alias of that object) are replaced using
`f` (string-keyed maps) or `g` (`map[any]any`). -/
def mutVal (a : Nat) (f : GoFields → GoFields) (g : GoAFields → GoAFields) :
    GoVal → GoVal
  | .vmap id m =>
      let m' := mutFields a f g m
      if id = a then .vmap id (f m') else .vmap id m'
  | .vanymap id m =>
      let m' := mutAFields a f g m
      if id = a then .vanymap id (g m') else .vanymap id m'
  | .varr xs => .varr (mutList a f g xs)
  | v => v

/-- `mutVal` over a `[]any`. -/
def mutList (a : Nat) (f : GoFields → GoFields) (g : GoAFields → GoAFields) :
    GoList → GoList
  | .nil => .nil
  | .cons v tl => .cons (mutVal a f g v) (mutList a f g tl)

/-- `mutVal` over a `map[string]any`'s entries. -/
def mutFields (a : Nat) (f : GoFields → GoFields) (g : GoAFields → GoAFields) :
    GoFields → GoFields
  | .nil => .nil
  | .cons k v tl => .cons k (mutVal a f g v) (mutFields a f g tl)

/-- `mutVal` over a `map[any]any`'s entries. -/
def mutAFields (a : Nat) (f : GoFields → GoFields) (g : GoAFields → GoAFields) :
    GoAFields → GoAFields
  | .nil => .nil
  | .cons k v tl => .cons k (mutVal a f g v) (mutAFields a f g tl)

end

mutual

/-- The id-erased shape of a value: the configuration data a value holds,
with map object identities forgotten.  Two heap structures hold the same
data exactly when their erasures are equal. -/
inductive EVal : Type where
  | vnull
  | vbool (b : Bool)
  | vint (n : Int)
  | vint64 (n : Int)
  | vuint64 (n : Nat)
  | vfloat (q : Rat)
  | vstr (s : String)
  | varr (xs : EList)
  | vstrarr (xs : List String)
  | vmap (m : EFields)
  | vanymap (m : EAFields)

/-- Id-erased `[]any`. -/
inductive EList : Type where
  | nil
  | cons (v : EVal) (tl : EList)

/-- Id-erased `map[string]any`. -/
inductive EFields : Type where
  | nil
  | cons (k : String) (v : EVal) (tl : EFields)

/-- Id-erased `map[any]any`. -/
inductive EAFields : Type where
  | nil
  | cons (k : GoKey) (v : EVal) (tl : EAFields)

end

deriving instance DecidableEq for EVal
deriving instance DecidableEq for EList
deriving instance DecidableEq for EFields
deriving instance DecidableEq for EAFields

mutual

/-- Forget the map ids of a value. -/
def eraseVal : GoVal → EVal
  | .vnull => .vnull
  | .vbool b => .vbool b
  | .vint n => .vint n
  | .vint64 n => .vint64 n
  | .vuint64 n => .vuint64 n
  | .vfloat q => .vfloat q
  | .vstr s => .vstr s
  | .varr xs => .varr (eraseList xs)
  | .vstrarr xs => .vstrarr xs
  | .vmap _ m => .vmap (eraseFields m)
  | .vanymap _ m => .vanymap (eraseAFields m)

/-- Forget the map ids of a `[]any`. -/
def eraseList : GoList → EList
  | .nil => .nil
  | .cons v tl => .cons (eraseVal v) (eraseList tl)

/-- Forget the map ids of a `map[string]any`. -/
def eraseFields : GoFields → EFields
  | .nil => .nil
  | .cons k v tl => .cons k (eraseVal v) (eraseFields tl)

/-- Forget the map ids of a `map[any]any`. -/
def eraseAFields : GoAFields → EAFields
  | .nil => .nil
  | .cons k v tl => .cons k (eraseVal v) (eraseAFields tl)

end

mutual

/-- Every mapping node inside the value has string keys; equivalently, no
`map[any]any` node occurs.  These are exactly the values `deepCopyValue`
copies in full. -/
def stringKeyedVal : GoVal → Bool
  | .vanymap _ _ => false
  | .vmap _ m => stringKeyedFields m
  | .varr xs => stringKeyedList xs
  | _ => true

/-- `stringKeyedVal` over a `[]any`. -/
def stringKeyedList : GoList → Bool
  | .nil => true
  | .cons v tl => stringKeyedVal v && stringKeyedList tl

/-- `stringKeyedVal` over a `map[string]any`'s entries. -/
def stringKeyedFields : GoFields → Bool
  | .nil => true
  | .cons _ v tl => stringKeyedVal v && stringKeyedFields tl

end

/-- The configuration handle: the root `map[string]any` object (its id and
contents).  `Config.values` is the root map. -/
structure Config : Type where
  rootId : Nat
  values : GoFields
  deriving DecidableEq

/-- `Config.find(path)`: split the dotted path on `"."` and walk the tree
one segment at a time starting from the root map. -/
def Config.find (c : Config) (path : String) : Option GoVal :=
  findSegs (.vmap c.rootId c.values) (goSplitDot path)

/-- `Has(key)`. -/
def Config.Has (c : Config) (key : String) : Bool :=
  (c.find key).isSome

/-- `Get(key)`: the found value, or `nil` when not found. -/
def Config.Get (c : Config) (key : String) : GoVal :=
  (c.find key).getD .vnull

/-- `FromMap(values)`: a new handle holding a deep copy of the caller's
map (the fresh root map gets id `n`). -/
def FromMap (values : GoFields) (n : Nat) : Config × Nat :=
  let p := deepCopyFields values (n + 1)
  (⟨n, p.1⟩, p.2)

/-- `WithOverrides(overrides)`: deep-copy the receiver's values, expand the
dotted override keys, and merge the expansion into the copy; the receiver
is left untouched and a new handle is returned. -/
def Config.WithOverrides (c : Config) (ov : List (String × GoVal)) (n : Nat) :
    Config × Nat :=
  let cp := deepCopyFields c.values (n + 1)
  let ex := expandDotKeys ov cp.2
  (⟨n, mergeMaps cp.1 ex.1⟩, ex.2)

/-- `All()`: a deep copy of the root map. -/
def Config.All (c : Config) (n : Nat) : GoVal × Nat :=
  let p := deepCopyFields c.values (n + 1)
  (.vmap n p.1, p.2)

/-- `GetMap(key)`: a deep copy of the addressed sub-map, when the key
resolves to a `map[string]any`. -/
def Config.GetMap (c : Config) (key : String) (n : Nat) :
    Option GoVal × Nat :=
  match c.find key with
  | some (.vmap _ m) =>
      let p := deepCopyFields m (n + 1)
      (some (.vmap n p.1), p.2)
  | _ => (none, n)

/-- `GetSub(key)`: an independent handle holding a deep copy of the
addressed sub-map. -/
def Config.GetSub (c : Config) (key : String) (n : Nat) :
    Option Config × Nat :=
  match c.find key with
  | some (.vmap _ m) =>
      let p := deepCopyFields m (n + 1)
      (some ⟨n, p.1⟩, p.2)
  | _ => (none, n)

/-- A heap write to map object `a`, as observed through a handle: the root
map's contents are rewritten if the root carries id `a`, and so is every
aliased node below it. -/
def Config.mut (c : Config) (a : Nat) (f : GoFields → GoFields)
    (g : GoAFields → GoAFields) : Config :=
  let m := mutFields a f g c.values
  ⟨c.rootId, if c.rootId = a then f m else m⟩

/-- All map ids reachable from a handle (root map included). -/
def Config.ids (c : Config) : List Nat :=
  c.rootId :: idsFields c.values

/-- `getFirst(values)`: the first element, or the zero value of the type
(passed explicitly here) when the variadic list is empty. -/
def getFirst {α : Type} (zero : α) : List α → α
  | [] => zero
  | x :: _ => x

/-- Accumulator loop for a run of base-10 digits. -/
def parseDecAux : List Char → Nat → Option Nat
  | [], acc => some acc
  | c :: tl, acc =>
      if c.isDigit then parseDecAux tl (acc * 10 + (c.toNat - 48)) else none

/-- A nonempty run of base-10 digits, as a natural number. -/
def parseDecDigits : List Char → Option Nat
  | [] => none
  | cs => parseDecAux cs 0

/-- `strconv.ParseInt(s, 10, bits)`: optional sign, nonempty digit run,
result range-checked against the signed `bits`-bit range.  A range error
makes `ParseInt` return a non-nil error, which every caller in this code
treats as failure, so it is `none` here. -/
def goParseInt (s : String) (bits : Nat) : Option Int :=
  match s.data with
  | '+' :: tl =>
      (parseDecDigits tl).bind fun m =>
        if (m : Int) ≤ 2 ^ (bits - 1) - 1 then some (m : Int) else none
  | '-' :: tl =>
      (parseDecDigits tl).bind fun m =>
        if (m : Int) ≤ 2 ^ (bits - 1) then some (-(m : Int)) else none
  | cs =>
      (parseDecDigits cs).bind fun m =>
        if (m : Int) ≤ 2 ^ (bits - 1) - 1 then some (m : Int) else none

/-- Digits as a decimal value (`0` for the empty run). -/
def decValue (cs : List Char) : Nat :=
  cs.foldl (fun acc c => acc * 10 + (c.toNat - 48)) 0

/-- Unsigned part of `strconv.ParseFloat`: `digits`, `digits.`, `.digits`
or `digits.digits`.  (Exponent/hex/`Inf`/`NaN` forms and the rounding of
the decimal to the nearest double are not modelled; no claim below depends
on inputs in those regimes.) -/
def goParseFloatMag (cs : List Char) : Option Rat :=
  match cs.splitOn '.' with
  | [ip] =>
      if ip ≠ [] ∧ ip.all Char.isDigit then some ((decValue ip : Int) : Rat)
      else none
  | [ip, fp] =>
      if (ip ≠ [] ∨ fp ≠ []) ∧ ip.all Char.isDigit ∧ fp.all Char.isDigit then
        some (((decValue ip : Int) : Rat) +
          ((decValue fp : Int) : Rat) / ((10 ^ fp.length : Nat) : Rat))
      else none
  | _ => none

/-- `strconv.ParseFloat(s, 64)` on plain decimal forms. -/
def goParseFloat (s : String) : Option Rat :=
  match s.data with
  | '+' :: tl => goParseFloatMag tl
  | '-' :: tl => (goParseFloatMag tl).map Neg.neg
  | cs => goParseFloatMag cs

/-- Truncation toward zero of a rational (Go's float-to-int fraction
discarding; `Int.tdiv` is T-division, i.e. toward zero). -/
def ratTrunc (q : Rat) : Int :=
  q.num.tdiv (q.den : Int)

/-- Go conversion of a `float64` to a 64-bit signed integer.  When the
truncated value is representable it is the result; otherwise the Go
specification leaves the result implementation-dependent and we model the
amd64 behaviour (`CVTTSD2SI` yields the "integer indefinite" value
`-2^63`, i.e. `math.MinInt64`). -/
def goFloatToInt64 (q : Rat) : Int :=
  let t := ratTrunc q
  if -(2 ^ 63) ≤ t ∧ t < 2 ^ 63 then t else -(2 ^ 63)

/-- The Go constant conversion `float64(math.MaxInt)` =
`float64(math.MaxInt64)`: `2^63 - 1` rounded to the nearest double.  The
neighbouring doubles are `2^63 - 1024` and `2^63`; `2^63` is nearer, so
the constant is exactly `2^63`. -/
def maxInt64AsFloat : Rat := 9223372036854775808

/-- `float64(math.MinInt)` = `float64(math.MinInt64)` = `-2^63`, exactly
representable. -/
def minInt64AsFloat : Rat := -9223372036854775808

/-- `toBool`: the source switches on bool, string (case-insensitive word
lists), int, int64 and float64; everything else fails. -/
def toBool : GoVal → Option Bool
  | .vbool b => some b
  | .vstr s =>
      match goToLower s with
      | "true" | "1" | "on" | "yes" | "y" => some true
      | "false" | "0" | "off" | "no" | "n" => some false
      | _ => none
  | .vint n => some (n != 0)
  | .vint64 n => some (n != 0)
  | .vfloat q => some (q != 0)
  | _ => none

/-- `toInt`: conversion to the platform `int` (64-bit here).  The `int64`
arm's range check against `int64(math.MinInt)`/`int64(math.MaxInt)` can
never fire on a 64-bit platform but is kept as written.  The `float64` arm
checks against the rounded constants `float64(math.MinInt)` /
`float64(math.MaxInt)` and then converts.  The string arm is
`strconv.Atoi`, i.e. `ParseInt(s, 10, 64)` on this platform. -/
def toInt : GoVal → Option Int
  | .vint n => some n
  | .vint64 n =>
      if n < -(2 ^ 63) ∨ n > 2 ^ 63 - 1 then none else some n
  | .vuint64 n =>
      if (n : Int) > 2 ^ 63 - 1 then none else some (n : Int)
  | .vfloat q =>
      if q < minInt64AsFloat ∨ q > maxInt64AsFloat then none
      else some (goFloatToInt64 q)
  | .vbool b => some (if b then 1 else 0)
  | .vstr s => goParseInt s 64
  | _ => none

/-- `toFloat64`.  (The Go conversions `int64→float64`/`uint64→float64`
round beyond `2^53`; they are exact here — no claim depends on values in
that regime reaching this function.) -/
def toFloat64 : GoVal → Option Rat
  | .vfloat q => some q
  | .vint n => some (n : Rat)
  | .vint64 n => some (n : Rat)
  | .vuint64 n => some ((n : Int) : Rat)
  | .vstr s => goParseFloat s
  | _ => none

/-- Space-separated join, as in `fmt`'s slice rendering. -/
def joinSpace : List String → String
  | [] => ""
  | [x] => x
  | x :: tl => x ++ " " ++ joinSpace tl

/-- Stand-in for Go's shortest-decimal `%v` rendering of a `float64`: a
double with integral value prints as the bare integer (which is all any
concrete input below exercises); for non-integral values this model prints
`num/den`, an admitted abstraction — no theorem depends on that output. -/
def goRenderFloat (q : Rat) : String :=
  if q.den = 1 then toString q.num
  else toString q.num ++ "/" ++ toString q.den

mutual

/-- `fmt.Sprintf("%v", v)`.  (For maps, `fmt` sorts the keys; this model
keeps the association-list order — an abstraction no theorem depends
on.) -/
def goRender : GoVal → String
  | .vnull => "<nil>"
  | .vbool b => if b then "true" else "false"
  | .vint n => toString n
  | .vint64 n => toString n
  | .vuint64 n => toString n
  | .vfloat q => goRenderFloat q
  | .vstr s => s
  | .varr xs => "[" ++ goRenderListBody xs ++ "]"
  | .vstrarr xs => "[" ++ joinSpace xs ++ "]"
  | .vmap _ m => "map[" ++ goRenderFieldsBody m ++ "]"
  | .vanymap _ m => "map[" ++ goRenderAFieldsBody m ++ "]"

/-- `%v` body of a `[]any`. -/
def goRenderListBody : GoList → String
  | .nil => ""
  | .cons v .nil => goRender v
  | .cons v tl => goRender v ++ " " ++ goRenderListBody tl

/-- `%v` body of a `map[string]any`. -/
def goRenderFieldsBody : GoFields → String
  | .nil => ""
  | .cons k v .nil => k ++ ":" ++ goRender v
  | .cons k v tl => k ++ ":" ++ goRender v ++ " " ++ goRenderFieldsBody tl

/-- `%v` body of a `map[any]any`. -/
def goRenderAFieldsBody : GoAFields → String
  | .nil => ""
  | .cons k v .nil => goRenderKey k ++ ":" ++ goRender v
  | .cons k v tl => goRenderKey k ++ ":" ++ goRender v ++ " " ++ goRenderAFieldsBody tl

end

/-- `GetString`: pass a found string through unchanged; a found `nil`
yields `""` (bypassing the default); an absent key yields the caller
default (or `""`); any other found value is rendered with `%v`. -/
def Config.GetString (c : Config) (key : String) (defaultVal : List String) :
    String :=
  match c.find key with
  | none => getFirst "" defaultVal
  | some .vnull => ""
  | some (.vstr s) => s
  | some v => goRender v

/-- `GetInt`: `toInt` on the found value, caller default on absence or
conversion failure. -/
def Config.GetInt (c : Config) (key : String) (defaultVal : List Int) : Int :=
  match c.find key with
  | none => getFirst 0 defaultVal
  | some v =>
      match toInt v with
      | some i => i
      | none => getFirst 0 defaultVal

/-- `GetInt64`: the accessor's own switch — `int64` and `int` pass
through, `uint64` is checked against `math.MaxInt64`, `float64` against
the rounded `float64(math.MinInt64)`/`float64(math.MaxInt64)` constants
before conversion, bool maps to 0/1, strings go through
`strconv.ParseInt(s, 10, 64)`; anything else (and every failed check)
falls back to the caller default. -/
def Config.GetInt64 (c : Config) (key : String) (defaultVal : List Int) :
    Int :=
  match c.find key with
  | none => getFirst 0 defaultVal
  | some v =>
      match v with
      | .vint64 n => n
      | .vint n => n
      | .vuint64 n =>
          if (n : Int) > 2 ^ 63 - 1 then getFirst 0 defaultVal else (n : Int)
      | .vfloat q =>
          if q < minInt64AsFloat ∨ q > maxInt64AsFloat then
            getFirst 0 defaultVal
          else goFloatToInt64 q
      | .vbool b => if b then 1 else 0
      | .vstr s =>
          match goParseInt s 64 with
          | some i => i
          | none => getFirst 0 defaultVal
      | _ => getFirst 0 defaultVal

/-- `%v` rendering of each element of a `[]any`. -/
def goRenderEach : GoList → List String
  | .nil => []
  | .cons v tl => goRender v :: goRenderEach tl

/-- `GetStringSlice`: nil for an absent key or found `nil`; a `[]string`
is returned (copied); a `[]any` is rendered element-wise; a string is
split on the separator (default `","`) with each part trimmed
(`strings.TrimSpace` modelled by `String.trim`); anything else becomes a
one-element slice of its `%v` rendering. -/
def Config.GetStringSlice (c : Config) (key : String)
    (separator : List String) : List String :=
  match c.find key with
  | none => []
  | some .vnull => []
  | some v =>
      let sep := match separator with | [] => "," | s :: _ => s
      match v with
      | .vstrarr xs => xs
      | .varr xs => goRenderEach xs
      | .vstr s => (goSplitSep s sep).map goTrimSpace
      | _ => [goRender v]

/-! ## Struct binder

The binder is reflective in Go.  It is embedded here over an explicit
universe of field types — signed fixed-width integers, `string` and
`bool` — which covers every case the claims quantify over; the
duration/time/pointer/slice/map/nested-struct arms of the source are
outside this universe and are not modelled. -/

/-- A signed integer field width (`int` is 64-bit on this platform). -/
inductive IntW : Type where
  | i8
  | i16
  | i32
  | i64
  | iInt
  deriving DecidableEq

/-- `t.Bits()`. -/
def IntW.bits : IntW → Nat
  | .i8 => 8
  | .i16 => 16
  | .i32 => 32
  | .i64 => 64
  | .iInt => 64

/-- A bindable field type. -/
inductive FieldTy : Type where
  | tint (w : IntW)
  | tstr
  | tbool
  deriving DecidableEq

/-- A bound field value. -/
inductive FieldVal : Type where
  | fint (n : Int)
  | fstr (s : String)
  | fbool (b : Bool)
  deriving DecidableEq

/-- The Go zero value of a field type (struct fields start zeroed). -/
def zeroVal : FieldTy → FieldVal
  | .tint _ => .fint 0
  | .tstr => .fstr ""
  | .tbool => .fbool false

/-- A conversion failure inside `convertToType` (the messages'
distinguishing data, without the rendered text). -/
inductive ConvErr : Type where
  | overflow (n : Int) (w : IntW)
  | uint64Overflow (n : Nat) (w : IntW)
  | parseFail (s : String) (t : FieldTy)
  | badType (t : FieldTy)
  deriving DecidableEq

/-- The `switch` of `convertToInt` producing the intermediate `i64`:
`int`/`int64` pass through, `uint64` is checked against `math.MaxInt64`,
a `float64` is converted with *no* range check, bool maps to 0/1, a
string is parsed with `strconv.ParseInt(v, 10, t.Bits())`. -/
def int64FromVal (val : GoVal) (w : IntW) : Except ConvErr Int :=
  match val with
  | .vint n => .ok n
  | .vint64 n => .ok n
  | .vuint64 n =>
      if (n : Int) > 2 ^ 63 - 1 then .error (.uint64Overflow n w)
      else .ok (n : Int)
  | .vfloat q => .ok (goFloatToInt64 q)
  | .vbool b => .ok (if b then 1 else 0)
  | .vstr s =>
      match goParseInt s w.bits with
      | some i => .ok i
      | none => .error (.parseFail s (.tint w))
  | _ => .error (.badType (.tint w))

/-- `convertToInt`: compute the intermediate `i64`, then
`reflect.Value.OverflowInt` checks it against the target width. -/
def convertToInt (val : GoVal) (w : IntW) : Except ConvErr Int :=
  match int64FromVal val w with
  | .error e => .error e
  | .ok i =>
      if i < -(2 ^ (w.bits - 1)) ∨ i > 2 ^ (w.bits - 1) - 1 then
        .error (.overflow i w)
      else .ok i

/-- `convertToType` on this universe: string targets render the value with
`%v`, bool targets go through `toBool`, integer targets through
`convertToInt`. -/
def convertToType (val : GoVal) (t : FieldTy) : Except ConvErr FieldVal :=
  match t with
  | .tstr => .ok (.fstr (goRender val))
  | .tbool =>
      match toBool val with
      | some b => .ok (.fbool b)
      | none => .error (.badType .tbool)
  | .tint w => (convertToInt val w).map .fint

/-- `parseStringToType` for non-duration/non-time targets: feed the
literal through `convertToType` as a string value. -/
def parseStringToType (s : String) (t : FieldTy) : Except ConvErr FieldVal :=
  convertToType (.vstr s) t

/-- One struct field: name, `cfg` tag (`""` when absent, `"-"` to skip),
optional `default` tag, and type. -/
structure FieldDesc : Type where
  name : String
  cfgTag : String
  defaultTag : Option String
  ty : FieldTy
  deriving DecidableEq

/-- The resolution key of a field: the `cfg` tag, or the lower-cased
field name when the tag is empty. -/
def FieldDesc.key (f : FieldDesc) : String :=
  if f.cfgTag = "" then goToLower f.name else f.cfgTag

/-- A binding failure, always carrying the offending field's name. -/
inductive BindErr : Type where
  | conv (field : String) (e : ConvErr)
  | badDefault (field : String) (lit : String) (e : ConvErr)
  deriving DecidableEq

/-- The field a binding error names. -/
def BindErr.fieldName : BindErr → String
  | .conv f _ => f
  | .badDefault f _ _ => f

/-- `applyDefault`: without a `default` tag the field is left alone (at
its zero value); with one, the literal is parsed through the live-value
coercion rules, a failure becoming a field-named error. -/
def applyDefault (f : FieldDesc) : Except BindErr FieldVal :=
  match f.defaultTag with
  | none => .ok (zeroVal f.ty)
  | some lit =>
      match parseStringToType lit f.ty with
      | .ok v => .ok v
      | .error e => .error (.badDefault f.name lit e)

/-- One iteration of the `unmarshalStruct` field loop: skip on tag `"-"`;
on an absent key or a present `nil`, apply the default; otherwise convert
the live value, a failure becoming a field-named error. -/
def bindOne (values : GoFields) (f : FieldDesc) : Except BindErr FieldVal :=
  if f.cfgTag = "-" then .ok (zeroVal f.ty)
  else
    match fieldsGet values f.key with
    | none => applyDefault f
    | some .vnull => applyDefault f
    | some v =>
        match convertToType v f.ty with
        | .ok fv => .ok fv
        | .error e => .error (.conv f.name e)

/-- `unmarshalStruct`: bind the fields in declaration order, aborting on
the first error. -/
def unmarshalStruct (values : GoFields) :
    List FieldDesc → Except BindErr (List FieldVal)
  | [] => .ok []
  | f :: tl =>
      match bindOne values f with
      | .error e => .error e
      | .ok v =>
          match unmarshalStruct values tl with
          | .error e => .error e
          | .ok vs => .ok (v :: vs)

/-! ## Validation rule engine -/

/-- A rule violation (the distinguishing data of the formatted message). -/
inductive Violation : Type where
  | requiredMissing (key : String)
  | notNumber (key : String)
  | outOfRange (key : String) (v lo hi : Rat)
  | notOneOf (key : String) (v : String) (allowed : List String)
  | badPattern (key : String) (pattern : String)
  | noMatch (key : String) (v : String) (pattern : String)
  deriving DecidableEq

/-- The built-in rule shapes (`Custom` carries an arbitrary Go closure and
is outside the claims). -/
inductive Rule : Type where
  | required (key : String)
  | inRange (key : String) (lo hi : Rat)
  | oneOf (key : String) (allowed : List String)
  | matchRegex (key : String) (pattern : String)

/-- Evaluation of one rule against a handle.  `rx pattern s` models
`regexp.MatchString`: `none` is a compile error of the pattern, `some b`
a successful match test. -/
def evalRule (rx : String → String → Option Bool) (c : Config) :
    Rule → Option Violation
  | .required k => if c.Has k then none else some (.requiredMissing k)
  | .inRange k lo hi =>
      if c.Has k then
        match toFloat64 (c.Get k) with
        | none => some (.notNumber k)
        | some q =>
            if q < lo ∨ q > hi then some (.outOfRange k q lo hi) else none
      else none
  | .oneOf k allowed =>
      if c.Has k then
        let v := c.GetString k []
        if allowed.contains v then none else some (.notOneOf k v allowed)
      else none
  | .matchRegex k p =>
      if c.Has k then
        let v := c.GetString k []
        match rx p v with
        | none => some (.badPattern k p)
        | some true => none
        | some false => some (.noMatch k v p)
      else none

/-- `Validate(rules...)`: every rule is evaluated; the violations are
collected in order (the returned `ValidationError.Violations` batch; the
call succeeds iff the batch is empty). -/
def Validate (rx : String → String → Option Bool) (c : Config)
    (rules : List Rule) : List Violation :=
  rules.filterMap (evalRule rx c)


/-! ## Claim theorems -/

/-- C2: `find` splits the path on `'.'` and walks the tree one segment at
a time; whenever the current node is not a mapping (including `nil`),
resolution of a nonempty remaining path fails; a present final key whose
value is `nil` resolves with `found = true` and value `nil`; the path
`"server.port"` over `{"server":{"port":8080}}` resolves to `8080` and
`"server.missing"` to not-found. -/
theorem claim_C2_find_resolution :
    (∀ (c : Config) (path : String),
        c.find path = findSegs (.vmap c.rootId c.values) (goSplitDot path)) ∧
    (∀ (cur : GoVal) (k : String) (tl : List String),
        (∀ id m, cur ≠ .vmap id m) → (∀ id m, cur ≠ .vanymap id m) →
        findSegs cur (k :: tl) = none) ∧
    (∀ (id : Nat) (m : GoFields) (k : String),
        fieldsGet m k = some .vnull → findSegs (.vmap id m) [k] = some .vnull) ∧
    Config.find ⟨0, .cons "server" (.vmap 1 (.cons "port" (.vint 8080) .nil)) .nil⟩
      "server.port" = some (.vint 8080) ∧
    Config.find ⟨0, .cons "server" (.vmap 1 (.cons "port" (.vint 8080) .nil)) .nil⟩
      "server.missing" = none := by
  refine ⟨fun c path => rfl, ?_, ?_, by decide, by decide⟩
  · intro cur k tl hm ha
    cases cur with
    | vmap id m => exact absurd rfl (hm id m)
    | vanymap id m => exact absurd rfl (ha id m)
    | vnull => rfl
    | vbool b => rfl
    | vint n => rfl
    | vint64 n => rfl
    | vuint64 n => rfl
    | vfloat q => rfl
    | vstr s => rfl
    | varr xs => rfl
    | vstrarr xs => rfl
  · intro id m k h
    simp [findSegs, h]

/-- Witness for C2 at concrete inputs: a non-mapping current node fails a
one-segment path, and a present `nil` value at the final segment is found
as `nil`. -/
theorem claim_C2_witness :
    findSegs (.vint 3) ["k"] = none ∧
    findSegs (.vmap 0 (.cons "p" .vnull .nil)) ["p"] = some .vnull :=
  ⟨claim_C2_find_resolution.2.1 (.vint 3) "k" []
      (by intro id m h; cases h) (by intro id m h; cases h),
   claim_C2_find_resolution.2.2.1 0 (.cons "p" .vnull .nil) "p" (by decide)⟩

/-- C9: `GetString` is the identity on a found string; a found `nil`
yields `""` even when a caller default is supplied; an absent key yields
the caller default; any other found value is rendered with `%v`. -/
theorem claim_C9_GetString :
    ∀ (c : Config) (key : String) (d : List String),
      (∀ s, c.find key = some (.vstr s) → c.GetString key d = s) ∧
      (c.find key = some .vnull → c.GetString key d = "") ∧
      (c.find key = none → c.GetString key d = getFirst "" d) ∧
      (∀ v, c.find key = some v → v ≠ .vnull → (∀ s, v ≠ .vstr s) →
        c.GetString key d = goRender v) := by
  intro c key d
  refine ⟨?_, ?_, ?_, ?_⟩
  · intro s h; simp [Config.GetString, h]
  · intro h; simp [Config.GetString, h]
  · intro h; simp [Config.GetString, h]
  · intro v h hnull hstr
    cases v with
    | vnull => exact absurd rfl hnull
    | vstr s => exact absurd rfl (hstr s)
    | vbool b => simp [Config.GetString, h]
    | vint n => simp [Config.GetString, h]
    | vint64 n => simp [Config.GetString, h]
    | vuint64 n => simp [Config.GetString, h]
    | vfloat q => simp [Config.GetString, h]
    | varr xs => simp [Config.GetString, h]
    | vstrarr xs => simp [Config.GetString, h]
    | vmap id m => simp [Config.GetString, h]
    | vanymap id m => simp [Config.GetString, h]

/-- Witness for C9 on a concrete handle: string identity, `nil` to `""`
despite a default, absence to the default, and `%v` rendering of an
integer. -/
theorem claim_C9_witness :
    Config.GetString ⟨0, .cons "s" (.vstr "hi") (.cons "z" .vnull
      (.cons "n" (.vint 7) .nil))⟩ "s" ["dflt"] = "hi" ∧
    Config.GetString ⟨0, .cons "s" (.vstr "hi") (.cons "z" .vnull
      (.cons "n" (.vint 7) .nil))⟩ "z" ["dflt"] = "" ∧
    Config.GetString ⟨0, .cons "s" (.vstr "hi") (.cons "z" .vnull
      (.cons "n" (.vint 7) .nil))⟩ "nope" ["dflt"] = "dflt" ∧
    Config.GetString ⟨0, .cons "s" (.vstr "hi") (.cons "z" .vnull
      (.cons "n" (.vint 7) .nil))⟩ "n" ["dflt"] = "7" :=
  ⟨(claim_C9_GetString _ "s" _).1 "hi" (by decide),
   (claim_C9_GetString _ "z" _).2.1 (by decide),
   (claim_C9_GetString _ "nope" _).2.2.1 (by decide),
   (claim_C9_GetString _ "n" _).2.2.2 (.vint 7) (by decide)
     (by intro h; cases h) (by intro s h; cases h)⟩

/-- C10: a key found with a value that is neither `nil`, a sequence
(`[]any`/`[]string`), nor a string makes `GetStringSlice` return the
one-element slice of the value's `%v` rendering — in particular not `nil`
and with no separator splitting. -/
theorem claim_C10_GetStringSlice_scalar :
    ∀ (c : Config) (key : String) (sep : List String) (v : GoVal),
      c.find key = some v →
      v ≠ .vnull → (∀ s, v ≠ .vstr s) →
      (∀ xs, v ≠ .varr xs) → (∀ xs, v ≠ .vstrarr xs) →
      c.GetStringSlice key sep = [goRender v] ∧
      c.GetStringSlice key sep ≠ [] := by
  intro c key sep v h hnull hstr harr hsarr
  have hmain : c.GetStringSlice key sep = [goRender v] := by
    cases v with
    | vnull => exact absurd rfl hnull
    | vstr s => exact absurd rfl (hstr s)
    | varr xs => exact absurd rfl (harr xs)
    | vstrarr xs => exact absurd rfl (hsarr xs)
    | vbool b => simp [Config.GetStringSlice, h]
    | vint n => simp [Config.GetStringSlice, h]
    | vint64 n => simp [Config.GetStringSlice, h]
    | vuint64 n => simp [Config.GetStringSlice, h]
    | vfloat q => simp [Config.GetStringSlice, h]
    | vmap id m => simp [Config.GetStringSlice, h]
    | vanymap id m => simp [Config.GetStringSlice, h]
  exact ⟨hmain, by simp [hmain]⟩

/-- Witness for C10: an integer-valued key yields a one-element rendered
slice, with or without a caller separator. -/
theorem claim_C10_witness :
    Config.GetStringSlice ⟨0, .cons "x" (.vint 5) .nil⟩ "x" [] = ["5"] ∧
    Config.GetStringSlice ⟨0, .cons "x" (.vint 5) .nil⟩ "x" [";"] ≠ [] :=
  ⟨(claim_C10_GetStringSlice_scalar _ "x" [] (.vint 5) (by decide)
      (by intro h; cases h) (by intro s h; cases h)
      (by intro xs h; cases h) (by intro xs h; cases h)).1,
   (claim_C10_GetStringSlice_scalar _ "x" [";"] (.vint 5) (by decide)
      (by intro h; cases h) (by intro s h; cases h)
      (by intro xs h; cases h) (by intro xs h; cases h)).2⟩

/-- C8: `Validate` evaluates every rule (violations of a concatenation are
the concatenation of violations — no short-circuit); the range, membership
and pattern rules produce no violation on an absent key while the presence
rule violates exactly then; and the `{"port":70000}` scenario with an
`InRange("port",1,65535)` and a `Required("host")` rule yields exactly two
violations. -/
theorem claim_C8_validate :
    (∀ (rx : String → String → Option Bool) (c : Config)
        (rs₁ rs₂ : List Rule),
        Validate rx c (rs₁ ++ rs₂) = Validate rx c rs₁ ++ Validate rx c rs₂) ∧
    (∀ (rx : String → String → Option Bool) (c : Config) (k : String)
        (lo hi : Rat), c.Has k = false →
        evalRule rx c (.inRange k lo hi) = none) ∧
    (∀ (rx : String → String → Option Bool) (c : Config) (k : String)
        (allowed : List String), c.Has k = false →
        evalRule rx c (.oneOf k allowed) = none) ∧
    (∀ (rx : String → String → Option Bool) (c : Config) (k p : String),
        c.Has k = false → evalRule rx c (.matchRegex k p) = none) ∧
    (∀ (rx : String → String → Option Bool) (c : Config) (k : String),
        c.Has k = false →
        evalRule rx c (.required k) = some (.requiredMissing k)) ∧
    ((Validate (fun _ _ => none) ⟨0, .cons "port" (.vint 70000) .nil⟩
        [.inRange "port" 1 65535, .required "host"]).length = 2) := by
  refine ⟨?_, ?_, ?_, ?_, ?_, by decide⟩
  · intro rx c rs₁ rs₂; simp [Validate]
  · intro rx c k lo hi h; simp [evalRule, h]
  · intro rx c k allowed h; simp [evalRule, h]
  · intro rx c k p h; simp [evalRule, h]
  · intro rx c k h; simp [evalRule, h]

/-- Witness for C8: the absent-key behaviour of each rule shape on a
concrete handle. -/
theorem claim_C8_witness :
    evalRule (fun _ _ => none) ⟨0, .nil⟩ (.inRange "port" 1 65535) = none ∧
    evalRule (fun _ _ => none) ⟨0, .nil⟩ (.oneOf "env" ["dev"]) = none ∧
    evalRule (fun _ _ => none) ⟨0, .nil⟩ (.matchRegex "host" "a+") = none ∧
    evalRule (fun _ _ => none) ⟨0, .nil⟩ (.required "host")
      = some (.requiredMissing "host") :=
  ⟨claim_C8_validate.2.1 _ _ "port" 1 65535 (by decide),
   claim_C8_validate.2.2.1 _ _ "env" ["dev"] (by decide),
   claim_C8_validate.2.2.2.1 _ _ "host" "a+" (by decide),
   claim_C8_validate.2.2.2.2.1 _ _ "host" (by decide)⟩

/-- Lookup after `fieldsSet` at the written key. -/
theorem fieldsGet_fieldsSet_self : ∀ (m : GoFields) (k : String) (v : GoVal),
    fieldsGet (fieldsSet m k v) k = some v
  | .nil, k, v => by simp [fieldsSet, fieldsGet]
  | .cons k' v' tl, k, v => by
      by_cases h : k' = k
      · simp [fieldsSet, h, fieldsGet]
      · simp [fieldsSet, h, fieldsGet, fieldsGet_fieldsSet_self tl k v]

/-- Lookup after `fieldsSet` at a different key. -/
theorem fieldsGet_fieldsSet_ne : ∀ (m : GoFields) (k : String) (v : GoVal)
    (k' : String), k ≠ k' → fieldsGet (fieldsSet m k v) k' = fieldsGet m k'
  | .nil, k, v, k', h => by simp [fieldsSet, fieldsGet, h]
  | .cons k0 v0 tl, k, v, k', h => by
      by_cases h0 : k0 = k
      · subst h0
        simp [fieldsSet, fieldsGet, h]
      · by_cases h1 : k0 = k'
        · subst h1
          simp [fieldsSet, fieldsGet, h0]
        · simp [fieldsSet, h0, fieldsGet, h1,
            fieldsGet_fieldsSet_ne tl k v k' h]

/-- `mergeOne` only writes its own key. -/
theorem fieldsGet_mergeOne_ne (dst : GoFields) (k : String) (v : GoVal)
    (k' : String) (h : k ≠ k') :
    fieldsGet (mergeOne dst k v) k' = fieldsGet dst k' := by
  have hs : ∀ w, fieldsGet (fieldsSet dst k w) k' = fieldsGet dst k' :=
    fun w => fieldsGet_fieldsSet_ne dst k w k' h
  cases v with
  | vmap sid sm =>
      cases hd : fieldsGet dst k with
      | none => simp [mergeOne, hd, hs]
      | some u => cases u <;> simp [mergeOne, hd, hs]
  | vnull => simp [mergeOne, hs]
  | vbool b => simp [mergeOne, hs]
  | vint n => simp [mergeOne, hs]
  | vint64 n => simp [mergeOne, hs]
  | vuint64 n => simp [mergeOne, hs]
  | vfloat q => simp [mergeOne, hs]
  | vstr s => simp [mergeOne, hs]
  | varr xs => simp [mergeOne, hs]
  | vstrarr xs => simp [mergeOne, hs]
  | vanymap id m => simp [mergeOne, hs]

/-- `mergeOne` at its own key: recursive merge when both sides hold a
`map[string]any`, wholesale replacement otherwise. -/
theorem fieldsGet_mergeOne_self (dst : GoFields) (k : String) (v : GoVal) :
    fieldsGet (mergeOne dst k v) k =
      match v, fieldsGet dst k with
      | .vmap _ sm, some (.vmap did dm) => some (.vmap did (mergeMaps dm sm))
      | _, _ => some v := by
  cases v with
  | vmap sid sm =>
      cases hd : fieldsGet dst k with
      | none => simp [mergeOne, hd, fieldsGet_fieldsSet_self]
      | some u => cases u <;> simp [mergeOne, hd, fieldsGet_fieldsSet_self]
  | vnull => simp [mergeOne, fieldsGet_fieldsSet_self]
  | vbool b => simp [mergeOne, fieldsGet_fieldsSet_self]
  | vint n => simp [mergeOne, fieldsGet_fieldsSet_self]
  | vint64 n => simp [mergeOne, fieldsGet_fieldsSet_self]
  | vuint64 n => simp [mergeOne, fieldsGet_fieldsSet_self]
  | vfloat q => simp [mergeOne, fieldsGet_fieldsSet_self]
  | vstr s => simp [mergeOne, fieldsGet_fieldsSet_self]
  | varr xs => simp [mergeOne, fieldsGet_fieldsSet_self]
  | vstrarr xs => simp [mergeOne, fieldsGet_fieldsSet_self]
  | vanymap id m => simp [mergeOne, fieldsGet_fieldsSet_self]

/-- A key not present in `src` is untouched by `mergeMaps`. -/
theorem fieldsGet_mergeMaps_not_mem : ∀ (dst src : GoFields) (k : String),
    k ∉ fieldsKeys src → fieldsGet (mergeMaps dst src) k = fieldsGet dst k
  | dst, .nil, k, _ => rfl
  | dst, .cons k0 v0 tl, k, h => by
      simp only [fieldsKeys, List.mem_cons, not_or] at h
      simp only [mergeMaps]
      rw [fieldsGet_mergeMaps_not_mem (mergeOne dst k0 v0) tl k h.2]
      exact fieldsGet_mergeOne_ne dst k0 v0 k (Ne.symm h.1)

/-- Key-lookup characterization of `mergeMaps` for a source map with
unique keys (Go maps always have unique keys). -/
theorem mergeMaps_lookup : ∀ (dst src : GoFields) (k : String),
    (fieldsKeys src).Nodup →
    fieldsGet (mergeMaps dst src) k =
      match fieldsGet src k, fieldsGet dst k with
      | some (.vmap _ sm), some (.vmap did dm) =>
          some (.vmap did (mergeMaps dm sm))
      | some sv, _ => some sv
      | none, _ => fieldsGet dst k
  | dst, .nil, k, _ => rfl
  | dst, .cons k0 v0 tl, k, h => by
      simp only [fieldsKeys, List.nodup_cons] at h
      by_cases hk : k = k0
      · subst hk
        have hL : fieldsGet (mergeMaps dst (.cons k v0 tl)) k
            = fieldsGet (mergeOne dst k v0) k := by
          simp only [mergeMaps]
          exact fieldsGet_mergeMaps_not_mem _ tl k h.1
        rw [hL, fieldsGet_mergeOne_self]
        simp only [fieldsGet, if_pos rfl]
        cases v0 with
        | vmap sid sm =>
            cases hd : fieldsGet dst k with
            | none => rfl
            | some u => cases u <;> rfl
        | vnull => rfl
        | vbool b => rfl
        | vint n => rfl
        | vint64 n => rfl
        | vuint64 n => rfl
        | vfloat q => rfl
        | vstr s => rfl
        | varr xs => rfl
        | vstrarr xs => rfl
        | vanymap id m => rfl
      · simp only [mergeMaps]
        rw [mergeMaps_lookup (mergeOne dst k0 v0) tl k h.2]
        rw [fieldsGet_mergeOne_ne dst k0 v0 k (Ne.symm hk)]
        have hr : fieldsGet (.cons k0 v0 tl) k = fieldsGet tl k := by
          simp [fieldsGet, Ne.symm hk]
        rw [hr]

/-- C1: `mergeMaps` processes every key of the source: when both sides
hold a string-keyed mapping at a key the mappings are merged recursively
(keeping the destination map object), in every other case the source value
replaces the destination value wholesale; and the
`{"a":{"b":1,"c":2}} ⊕ {"a":{"b":10,"d":3}}` scenario yields
`{"a":{"b":10,"c":2,"d":3}}`. -/
theorem claim_C1_mergeMaps :
    (∀ (dst src : GoFields) (k : String), (fieldsKeys src).Nodup →
      fieldsGet (mergeMaps dst src) k =
        match fieldsGet src k, fieldsGet dst k with
        | some (.vmap _ sm), some (.vmap did dm) =>
            some (.vmap did (mergeMaps dm sm))
        | some sv, _ => some sv
        | none, _ => fieldsGet dst k) ∧
    mergeMaps
      (.cons "a" (.vmap 1 (.cons "b" (.vint 1) (.cons "c" (.vint 2) .nil))) .nil)
      (.cons "a" (.vmap 2 (.cons "b" (.vint 10) (.cons "d" (.vint 3) .nil))) .nil)
    = .cons "a"
        (.vmap 1 (.cons "b" (.vint 10) (.cons "c" (.vint 2)
          (.cons "d" (.vint 3) .nil)))) .nil :=
  ⟨mergeMaps_lookup, by decide⟩

/-- Witness for C1: the lookup characterization applied to concrete maps —
a key present only in the source, a key present in both as nested maps,
and a key present only in the destination. -/
theorem claim_C1_witness :
    fieldsGet (mergeMaps (.cons "x" (.vint 1) .nil)
      (.cons "x" (.vint 2) .nil)) "x" = some (.vint 2) ∧
    fieldsGet (mergeMaps
      (.cons "m" (.vmap 1 (.cons "a" (.vint 1) .nil)) .nil)
      (.cons "m" (.vmap 2 (.cons "b" (.vint 9) .nil)) .nil)) "m"
      = some (.vmap 1 (.cons "a" (.vint 1) (.cons "b" (.vint 9) .nil))) ∧
    fieldsGet (mergeMaps (.cons "d" (.vstr "old") .nil) .nil) "d"
      = some (.vstr "old") :=
  ⟨claim_C1_mergeMaps.1 (.cons "x" (.vint 1) .nil)
      (.cons "x" (.vint 2) .nil) "x" (by decide),
   claim_C1_mergeMaps.1 (.cons "m" (.vmap 1 (.cons "a" (.vint 1) .nil)) .nil)
      (.cons "m" (.vmap 2 (.cons "b" (.vint 9) .nil)) .nil) "m" (by decide),
   claim_C1_mergeMaps.1 (.cons "d" (.vstr "old") .nil) .nil "d" (by decide)⟩

/-- C7: default tags are evaluated lazily — a field whose resolved key is
present with a non-null value binds identically for any `default` tag
(malformed or not, the literal is never parsed), while a field whose key
is absent or null and whose `default` tag fails to parse produces a
field-named binding error; concretely, a present valid value makes
`unmarshalStruct` succeed despite the malformed default `"xyz"`, and the
same field over an empty subtree fails with the field-named error. -/
theorem claim_C7_lazy_defaults :
    (∀ (values : GoFields) (name cfgTag : String) (d d' : Option String)
        (ty : FieldTy) (v : GoVal),
        fieldsGet values (FieldDesc.key ⟨name, cfgTag, d, ty⟩) = some v →
        v ≠ .vnull →
        bindOne values ⟨name, cfgTag, d, ty⟩
          = bindOne values ⟨name, cfgTag, d', ty⟩) ∧
    (∀ (values : GoFields) (f : FieldDesc) (lit : String) (e : ConvErr),
        f.cfgTag ≠ "-" →
        (fieldsGet values f.key = none ∨ fieldsGet values f.key = some .vnull) →
        f.defaultTag = some lit →
        parseStringToType lit f.ty = .error e →
        bindOne values f = .error (.badDefault f.name lit e)) ∧
    unmarshalStruct (.cons "a" (.vint 5) .nil)
      [⟨"A", "", some "xyz", .tint .i64⟩] = .ok [.fint 5] ∧
    unmarshalStruct .nil [⟨"A", "", some "xyz", .tint .i64⟩]
      = .error (.badDefault "A" "xyz" (.parseFail "xyz" (.tint .i64))) := by
  refine ⟨?_, ?_, by decide, by decide⟩
  · intro values name cfgTag d d' ty v h hv
    simp only [FieldDesc.key] at h
    by_cases hskip : cfgTag = "-"
    · simp [bindOne, hskip]
    · cases v with
      | vnull => exact absurd rfl hv
      | vbool b => simp [bindOne, FieldDesc.key, hskip, h]
      | vint n => simp [bindOne, FieldDesc.key, hskip, h]
      | vint64 n => simp [bindOne, FieldDesc.key, hskip, h]
      | vuint64 n => simp [bindOne, FieldDesc.key, hskip, h]
      | vfloat q => simp [bindOne, FieldDesc.key, hskip, h]
      | vstr s => simp [bindOne, FieldDesc.key, hskip, h]
      | varr xs => simp [bindOne, FieldDesc.key, hskip, h]
      | vstrarr xs => simp [bindOne, FieldDesc.key, hskip, h]
      | vmap id m => simp [bindOne, FieldDesc.key, hskip, h]
      | vanymap id m => simp [bindOne, FieldDesc.key, hskip, h]
  · intro values f lit e hskip hve hd hp
    rcases hve with h | h
    · simp [bindOne, hskip, h, applyDefault, hd, hp]
    · simp [bindOne, hskip, h, applyDefault, hd, hp]

/-- Witness for C7: the default-independence applied to a concrete present
field, and the field-named error for a concrete absent field. -/
theorem claim_C7_witness :
    bindOne (.cons "a" (.vint 5) .nil) ⟨"A", "", some "xyz", .tint .i64⟩
      = bindOne (.cons "a" (.vint 5) .nil) ⟨"A", "", some "7", .tint .i64⟩ ∧
    bindOne .nil ⟨"A", "", some "xyz", .tint .i64⟩
      = .error (.badDefault "A" "xyz" (.parseFail "xyz" (.tint .i64))) :=
  ⟨claim_C7_lazy_defaults.1 (.cons "a" (.vint 5) .nil) "A" "" (some "xyz")
      (some "7") (.tint .i64) (.vint 5) (by decide) (by intro h; cases h),
   claim_C7_lazy_defaults.2.1 .nil ⟨"A", "", some "xyz", .tint .i64⟩ "xyz"
      (.parseFail "xyz" (.tint .i64)) (by decide) (Or.inl (by decide))
      (by decide) (by decide)⟩

/-- C3: the accessors' float range guards compare against
`float64(math.MaxInt)` = `2^63` (the constant `2^63 - 1` rounds up), so
the exactly-representable double `2^63` — which is outside the `int` and
`int64` ranges — passes the guard and is converted, yielding the wrapped
value `math.MinInt64` (amd64) instead of the caller default `99`.  This
refutes "out-of-range numeric values always yield the caller default,
never a wrapped value" at this input; the guards for the `uint64`,
`int64` and sub-`2^63` float cases behave as claimed. -/
theorem claim_C3_float_boundary_not_defaulted :
    ((9223372036854775808 : Rat) > ((9223372036854775807 : Int) : Rat)) ∧
    toInt (.vfloat 9223372036854775808) = some (-9223372036854775808) ∧
    Config.GetInt ⟨0, .cons "x" (.vfloat 9223372036854775808) .nil⟩ "x" [99]
      = -9223372036854775808 ∧
    Config.GetInt64 ⟨0, .cons "x" (.vfloat 9223372036854775808) .nil⟩ "x" [99]
      = -9223372036854775808 ∧
    Config.GetInt64 ⟨0, .cons "x" (.vuint64 9223372036854775808) .nil⟩ "x" [99]
      = 99 :=
  ⟨by decide, by decide, by decide, by decide, by decide⟩

/-- C4: `convertToInt` performs no range check on its `float64` arm before
the 64-bit narrowing, so binding the exactly-representable double `2^80`
to an `int64` field succeeds and silently stores the wrapped value
`math.MinInt64` (amd64) where the claim requires a field-named overflow
error; the truncation-toward-zero of in-range floats does hold. -/
theorem claim_C4_float_overflow_not_erred :
    convertToInt (.vfloat 1208925819614629174706176) .i64
      = .ok (-9223372036854775808) ∧
    unmarshalStruct (.cons "n" (.vfloat 1208925819614629174706176) .nil)
      [⟨"N", "", none, .tint .i64⟩] = .ok [.fint (-9223372036854775808)] ∧
    convertToInt (.vfloat (Rat.divInt 7 2)) .i64 = .ok 3 ∧
    convertToInt (.vfloat (Rat.divInt (-7) 2)) .i64 = .ok (-3) ∧
    convertToInt (.vint 300) .i8 = .error (.overflow 300 .i8) :=
  ⟨by decide, by decide, by decide, by decide, by decide⟩

mutual

/-- Every value produced by `normalizeValue` is string-keyed. -/
theorem stringKeyed_normalizeValue : ∀ (v : GoVal) (n : Nat),
    stringKeyedVal (normalizeValue v n).1 = true
  | .vanymap id m, n => by
      simp only [normalizeValue, stringKeyedVal]
      exact stringKeyed_normalizeAFields m (n + 1)
  | .vmap id m, n => by
      simp only [normalizeValue, stringKeyedVal]
      exact stringKeyed_normalizeFields m (n + 1)
  | .varr xs, n => by
      simp only [normalizeValue, stringKeyedVal]
      exact stringKeyed_normalizeList xs n
  | .vnull, _ => rfl
  | .vbool _, _ => rfl
  | .vint _, _ => rfl
  | .vint64 _, _ => rfl
  | .vuint64 _, _ => rfl
  | .vfloat _, _ => rfl
  | .vstr _, _ => rfl
  | .vstrarr _, _ => rfl

/-- `normalizeFields` produces string-keyed entries. -/
theorem stringKeyed_normalizeFields : ∀ (m : GoFields) (n : Nat),
    stringKeyedFields (normalizeFields m n).1 = true
  | .nil, _ => rfl
  | .cons k v tl, n => by
      simp only [normalizeFields, stringKeyedFields, Bool.and_eq_true]
      exact ⟨stringKeyed_normalizeValue v n,
        stringKeyed_normalizeFields tl (normalizeValue v n).2⟩

/-- `normalizeAFields` produces string-keyed entries. -/
theorem stringKeyed_normalizeAFields : ∀ (m : GoAFields) (n : Nat),
    stringKeyedFields (normalizeAFields m n).1 = true
  | .nil, _ => rfl
  | .cons k v tl, n => by
      simp only [normalizeAFields, stringKeyedFields, Bool.and_eq_true]
      exact ⟨stringKeyed_normalizeValue v n,
        stringKeyed_normalizeAFields tl (normalizeValue v n).2⟩

/-- `normalizeList` produces string-keyed elements. -/
theorem stringKeyed_normalizeList : ∀ (xs : GoList) (n : Nat),
    stringKeyedList (normalizeList xs n).1 = true
  | .nil, _ => rfl
  | .cons v tl, n => by
      simp only [normalizeList, stringKeyedList, Bool.and_eq_true]
      exact ⟨stringKeyed_normalizeValue v n,
        stringKeyed_normalizeList tl (normalizeValue v n).2⟩

end

mutual

/-- A deep copy holds exactly the configuration data of the original: the
copy's id-erasure equals the original's. -/
theorem deepCopyValue_erase : ∀ (v : GoVal) (n : Nat),
    eraseVal (deepCopyValue v n).1 = eraseVal v
  | .vmap id m, n => by
      simp only [deepCopyValue, eraseVal]
      rw [deepCopyFields_erase m (n + 1)]
  | .varr xs, n => by
      simp only [deepCopyValue, eraseVal]
      rw [deepCopyList_erase xs n]
  | .vstrarr xs, _ => rfl
  | .vanymap id m, _ => rfl
  | .vnull, _ => rfl
  | .vbool _, _ => rfl
  | .vint _, _ => rfl
  | .vint64 _, _ => rfl
  | .vuint64 _, _ => rfl
  | .vfloat _, _ => rfl
  | .vstr _, _ => rfl

/-- `deepCopyList` preserves values. -/
theorem deepCopyList_erase : ∀ (xs : GoList) (n : Nat),
    eraseList (deepCopyList xs n).1 = eraseList xs
  | .nil, _ => rfl
  | .cons v tl, n => by
      simp only [deepCopyList, eraseList]
      rw [deepCopyValue_erase v n, deepCopyList_erase tl (deepCopyValue v n).2]

/-- `deepCopyFields` preserves keys and values. -/
theorem deepCopyFields_erase : ∀ (m : GoFields) (n : Nat),
    eraseFields (deepCopyFields m n).1 = eraseFields m
  | .nil, _ => rfl
  | .cons k v tl, n => by
      simp only [deepCopyFields, eraseFields]
      rw [deepCopyValue_erase v n, deepCopyFields_erase tl (deepCopyValue v n).2]

end

/-- C6 counterexample: a `map[any]any` with an integer key nested in a
caller-supplied map survives `FromMap` (which only deep-copies, and the
copy's `default` branch passes a `map[any]any` through): the constructed
handle's tree is not string-keyed. -/
theorem claim_C6_counterexample :
    stringKeyedFields (FromMap (.cons "a" (.vanymap 7
      (.cons (.kint 1) (.vstr "x") .nil)) .nil) 100).1.values = false := by
  decide

/-- C6 amended: `normalizeValue`/`normalizeMap` do stringify every mapping
key, so values that pass through them (the YAML/JSON loader path) enter
the tree string-keyed; but `FromMap` merely deep-copies the caller's map —
value-for-value, with no key normalization — so a non-string-keyed mapping
nested in the caller's map enters the tree as-is. -/
theorem claim_C6_amended :
    (∀ (v : GoVal) (n : Nat), stringKeyedVal (normalizeValue v n).1 = true) ∧
    (∀ (m : GoFields) (n : Nat),
        stringKeyedFields (normalizeMap m n).1 = true) ∧
    (∀ (m : GoFields) (n : Nat),
        eraseFields (FromMap m n).1.values = eraseFields m) :=
  ⟨stringKeyed_normalizeValue,
   fun m n => stringKeyed_normalizeFields m n,
   fun m n => deepCopyFields_erase m (n + 1)⟩

mutual

/-- A heap write to an object not reachable from a value leaves the value
unchanged. -/
theorem mutVal_not_mem : ∀ (a : Nat) (f : GoFields → GoFields)
    (g : GoAFields → GoAFields) (v : GoVal), a ∉ idsVal v → mutVal a f g v = v
  | a, f, g, .vnull, _ => rfl
  | a, f, g, .vmap id m, h => by
      simp only [idsVal, List.mem_cons, not_or] at h
      simp [mutVal, mutFields_not_mem a f g m h.2, Ne.symm h.1]
  | a, f, g, .vanymap id m, h => by
      simp only [idsVal, List.mem_cons, not_or] at h
      simp [mutVal, mutAFields_not_mem a f g m h.2, Ne.symm h.1]
  | a, f, g, .varr xs, h => by
      simp only [idsVal] at h
      simp [mutVal, mutList_not_mem a f g xs h]
  | a, f, g, .vbool _, _ => rfl
  | a, f, g, .vint _, _ => rfl
  | a, f, g, .vint64 _, _ => rfl
  | a, f, g, .vuint64 _, _ => rfl
  | a, f, g, .vfloat _, _ => rfl
  | a, f, g, .vstr _, _ => rfl
  | a, f, g, .vstrarr _, _ => rfl

/-- `mutVal_not_mem` for `[]any`. -/
theorem mutList_not_mem : ∀ (a : Nat) (f : GoFields → GoFields)
    (g : GoAFields → GoAFields) (xs : GoList),
    a ∉ idsList xs → mutList a f g xs = xs
  | a, f, g, .nil, _ => rfl
  | a, f, g, .cons v tl, h => by
      simp only [idsList, List.mem_append, not_or] at h
      simp [mutList, mutVal_not_mem a f g v h.1, mutList_not_mem a f g tl h.2]

/-- `mutVal_not_mem` for `map[string]any` entries. -/
theorem mutFields_not_mem : ∀ (a : Nat) (f : GoFields → GoFields)
    (g : GoAFields → GoAFields) (m : GoFields),
    a ∉ idsFields m → mutFields a f g m = m
  | a, f, g, .nil, _ => rfl
  | a, f, g, .cons k v tl, h => by
      simp only [idsFields, List.mem_append, not_or] at h
      simp [mutFields, mutVal_not_mem a f g v h.1, mutFields_not_mem a f g tl h.2]

/-- `mutVal_not_mem` for `map[any]any` entries. -/
theorem mutAFields_not_mem : ∀ (a : Nat) (f : GoFields → GoFields)
    (g : GoAFields → GoAFields) (m : GoAFields),
    a ∉ idsAFields m → mutAFields a f g m = m
  | a, f, g, .nil, _ => rfl
  | a, f, g, .cons k v tl, h => by
      simp only [idsAFields, List.mem_append, not_or] at h
      simp [mutAFields, mutVal_not_mem a f g v h.1, mutAFields_not_mem a f g tl h.2]

end

mutual

/-- The deep-copy counter never decreases. -/
theorem deepCopyValue_counter_le : ∀ (v : GoVal) (n : Nat),
    n ≤ (deepCopyValue v n).2
  | .vmap id m, n => by
      simp only [deepCopyValue]
      have := deepCopyFields_counter_le m (n + 1)
      omega
  | .varr xs, n => deepCopyList_counter_le xs n
  | .vstrarr _, n => Nat.le_refl n
  | .vanymap _ _, n => Nat.le_refl n
  | .vnull, n => Nat.le_refl n
  | .vbool _, n => Nat.le_refl n
  | .vint _, n => Nat.le_refl n
  | .vint64 _, n => Nat.le_refl n
  | .vuint64 _, n => Nat.le_refl n
  | .vfloat _, n => Nat.le_refl n
  | .vstr _, n => Nat.le_refl n

/-- `deepCopyList_counter_le`. -/
theorem deepCopyList_counter_le : ∀ (xs : GoList) (n : Nat),
    n ≤ (deepCopyList xs n).2
  | .nil, n => Nat.le_refl n
  | .cons v tl, n => by
      simp only [deepCopyList]
      have h1 := deepCopyValue_counter_le v n
      have h2 := deepCopyList_counter_le tl (deepCopyValue v n).2
      omega

/-- `deepCopyFields_counter_le`. -/
theorem deepCopyFields_counter_le : ∀ (m : GoFields) (n : Nat),
    n ≤ (deepCopyFields m n).2
  | .nil, n => Nat.le_refl n
  | .cons k v tl, n => by
      simp only [deepCopyFields]
      have h1 := deepCopyValue_counter_le v n
      have h2 := deepCopyFields_counter_le tl (deepCopyValue v n).2
      omega

end

mutual

/-- Deep-copying a string-keyed value allocates only fresh map ids: every
id of the copy lies in the allocation window `[n, n')`. -/
theorem deepCopyValue_ids_fresh : ∀ (v : GoVal) (n : Nat),
    stringKeyedVal v = true →
    ∀ a ∈ idsVal (deepCopyValue v n).1, n ≤ a ∧ a < (deepCopyValue v n).2
  | .vmap id m, n, h => by
      simp only [stringKeyedVal] at h
      simp only [deepCopyValue, idsVal]
      intro a ha
      rcases List.mem_cons.mp ha with h1 | ha
      · have := deepCopyFields_counter_le m (n + 1)
        omega
      · have := deepCopyFields_ids_fresh m (n + 1) h a ha
        omega
  | .varr xs, n, h => by
      simp only [stringKeyedVal] at h
      simp only [deepCopyValue, idsVal]
      exact deepCopyList_ids_fresh xs n h
  | .vanymap id m, n, h => by simp [stringKeyedVal] at h
  | .vstrarr _, n, _ => by intro a ha; simp [deepCopyValue, idsVal] at ha
  | .vnull, n, _ => by intro a ha; simp [deepCopyValue, idsVal] at ha
  | .vbool _, n, _ => by intro a ha; simp [deepCopyValue, idsVal] at ha
  | .vint _, n, _ => by intro a ha; simp [deepCopyValue, idsVal] at ha
  | .vint64 _, n, _ => by intro a ha; simp [deepCopyValue, idsVal] at ha
  | .vuint64 _, n, _ => by intro a ha; simp [deepCopyValue, idsVal] at ha
  | .vfloat _, n, _ => by intro a ha; simp [deepCopyValue, idsVal] at ha
  | .vstr _, n, _ => by intro a ha; simp [deepCopyValue, idsVal] at ha

/-- `deepCopyList_ids_fresh`. -/
theorem deepCopyList_ids_fresh : ∀ (xs : GoList) (n : Nat),
    stringKeyedList xs = true →
    ∀ a ∈ idsList (deepCopyList xs n).1, n ≤ a ∧ a < (deepCopyList xs n).2
  | .nil, n, _ => by intro a ha; simp [deepCopyList, idsList] at ha
  | .cons v tl, n, h => by
      simp only [stringKeyedList, Bool.and_eq_true] at h
      simp only [deepCopyList, idsList]
      intro a ha
      rcases List.mem_append.mp ha with ha | ha
      · have h1 := deepCopyValue_ids_fresh v n h.1 a ha
        have h2 := deepCopyList_counter_le tl (deepCopyValue v n).2
        omega
      · have h1 := deepCopyList_ids_fresh tl (deepCopyValue v n).2 h.2 a ha
        have h2 := deepCopyValue_counter_le v n
        omega

/-- `deepCopyFields_ids_fresh`. -/
theorem deepCopyFields_ids_fresh : ∀ (m : GoFields) (n : Nat),
    stringKeyedFields m = true →
    ∀ a ∈ idsFields (deepCopyFields m n).1, n ≤ a ∧ a < (deepCopyFields m n).2
  | .nil, n, _ => by intro a ha; simp [deepCopyFields, idsFields] at ha
  | .cons k v tl, n, h => by
      simp only [stringKeyedFields, Bool.and_eq_true] at h
      simp only [deepCopyFields, idsFields]
      intro a ha
      rcases List.mem_append.mp ha with ha | ha
      · have h1 := deepCopyValue_ids_fresh v n h.1 a ha
        have h2 := deepCopyFields_counter_le tl (deepCopyValue v n).2
        omega
      · have h1 := deepCopyFields_ids_fresh tl (deepCopyValue v n).2 h.2 a ha
        have h2 := deepCopyValue_counter_le v n
        omega

end

/-- `fieldsSet` introduces no map ids beyond those of the map and the
written value. -/
theorem fieldsSet_ids : ∀ (m : GoFields) (k : String) (v : GoVal) (a : Nat),
    a ∈ idsFields (fieldsSet m k v) → a ∈ idsFields m ∨ a ∈ idsVal v
  | .nil, k, v, a => by
      intro h
      simp only [fieldsSet, idsFields, List.append_nil] at h
      exact Or.inr h
  | .cons k0 v0 tl, k, v, a => by
      intro h
      by_cases hk : k0 = k
      · simp only [fieldsSet, if_pos hk, idsFields] at h
        rcases List.mem_append.mp h with h | h
        · exact Or.inr h
        · exact Or.inl (by simp only [idsFields]; exact List.mem_append_right _ h)
      · simp only [fieldsSet, if_neg hk, idsFields] at h
        rcases List.mem_append.mp h with h | h
        · exact Or.inl (by simp only [idsFields]; exact List.mem_append_left _ h)
        · rcases fieldsSet_ids tl k v a h with h | h
          · exact Or.inl (by simp only [idsFields]; exact List.mem_append_right _ h)
          · exact Or.inr h

/-- The ids of a value found in a `map[string]any` are among the map's
entry ids. -/
theorem fieldsGet_ids : ∀ (m : GoFields) (k : String) (u : GoVal),
    fieldsGet m k = some u → ∀ a ∈ idsVal u, a ∈ idsFields m
  | .nil, k, u, h => by simp [fieldsGet] at h
  | .cons k0 v0 tl, k, u, h => by
      by_cases hk : k0 = k
      · simp only [fieldsGet, if_pos hk] at h
        cases h
        intro a ha
        simp only [idsFields]
        exact List.mem_append_left _ ha
      · simp only [fieldsGet, if_neg hk] at h
        intro a ha
        simp only [idsFields]
        exact List.mem_append_right _ (fieldsGet_ids tl k u h a ha)

/-- The ids of a value found in a `map[any]any` are among the map's entry
ids. -/
theorem afieldsGetStr_ids : ∀ (m : GoAFields) (k : String) (u : GoVal),
    afieldsGetStr m k = some u → ∀ a ∈ idsVal u, a ∈ idsAFields m
  | .nil, k, u, h => by simp [afieldsGetStr] at h
  | .cons (.kstr k0) v0 tl, k, u, h => by
      by_cases hk : k0 = k
      · simp only [afieldsGetStr, if_pos hk] at h
        cases h
        intro a ha
        simp only [idsAFields]
        exact List.mem_append_left _ ha
      · simp only [afieldsGetStr, if_neg hk] at h
        intro a ha
        simp only [idsAFields]
        exact List.mem_append_right _ (afieldsGetStr_ids tl k u h a ha)
  | .cons (.kint i) v0 tl, k, u, h => by
      simp only [afieldsGetStr] at h
      intro a ha
      simp only [idsAFields]
      exact List.mem_append_right _ (afieldsGetStr_ids tl k u h a ha)

/-- The ids of a resolved subtree are among the ids of the tree it was
resolved from. -/
theorem findSegs_ids : ∀ (segs : List String) (v u : GoVal),
    findSegs v segs = some u → ∀ a ∈ idsVal u, a ∈ idsVal v
  | [], v, u, h => by
      simp only [findSegs] at h
      cases h
      exact fun a ha => ha
  | k :: tl, v, u, h => by
      cases v with
      | vmap id m =>
          cases hg : fieldsGet m k with
          | none => simp [findSegs, hg] at h
          | some nxt =>
              simp only [findSegs, hg] at h
              intro a ha
              have h1 := findSegs_ids tl nxt u h a ha
              have h2 := fieldsGet_ids m k nxt hg a h1
              simp only [idsVal]
              exact List.mem_cons_of_mem _ h2
      | vanymap id m =>
          cases hg : afieldsGetStr m k with
          | none => simp [findSegs, hg] at h
          | some nxt =>
              simp only [findSegs, hg] at h
              intro a ha
              have h1 := findSegs_ids tl nxt u h a ha
              have h2 := afieldsGetStr_ids m k nxt hg a h1
              simp only [idsVal]
              exact List.mem_cons_of_mem _ h2
      | vnull => simp [findSegs] at h
      | vbool b => simp [findSegs] at h
      | vint x => simp [findSegs] at h
      | vint64 x => simp [findSegs] at h
      | vuint64 x => simp [findSegs] at h
      | vfloat q => simp [findSegs] at h
      | vstr s => simp [findSegs] at h
      | varr xs => simp [findSegs] at h
      | vstrarr xs => simp [findSegs] at h

/-- Values found in a string-keyed map are string-keyed. -/
theorem fieldsGet_stringKeyed : ∀ (m : GoFields) (k : String) (u : GoVal),
    stringKeyedFields m = true → fieldsGet m k = some u →
    stringKeyedVal u = true
  | .nil, k, u, _, h => by simp [fieldsGet] at h
  | .cons k0 v0 tl, k, u, hs, h => by
      simp only [stringKeyedFields, Bool.and_eq_true] at hs
      by_cases hk : k0 = k
      · simp only [fieldsGet, if_pos hk] at h
        cases h
        exact hs.1
      · simp only [fieldsGet, if_neg hk] at h
        exact fieldsGet_stringKeyed tl k u hs.2 h

/-- Subtrees resolved from a string-keyed tree are string-keyed. -/
theorem findSegs_stringKeyed : ∀ (segs : List String) (v u : GoVal),
    stringKeyedVal v = true → findSegs v segs = some u →
    stringKeyedVal u = true
  | [], v, u, hs, h => by
      simp only [findSegs] at h
      cases h
      exact hs
  | k :: tl, v, u, hs, h => by
      cases v with
      | vmap id m =>
          cases hg : fieldsGet m k with
          | none => simp [findSegs, hg] at h
          | some nxt =>
              simp only [findSegs, hg] at h
              simp only [stringKeyedVal] at hs
              exact findSegs_stringKeyed tl nxt u
                (fieldsGet_stringKeyed m k nxt hs hg) h
      | vanymap id m => simp [stringKeyedVal] at hs
      | vnull => simp [findSegs] at h
      | vbool b => simp [findSegs] at h
      | vint x => simp [findSegs] at h
      | vint64 x => simp [findSegs] at h
      | vuint64 x => simp [findSegs] at h
      | vfloat q => simp [findSegs] at h
      | vstr s => simp [findSegs] at h
      | varr xs => simp [findSegs] at h
      | vstrarr xs => simp [findSegs] at h

mutual

/-- `mergeMaps` introduces no map ids beyond those of its two arguments
(the Go function moves and mutates existing maps, it allocates none). -/
theorem mergeMaps_ids : ∀ (dst src : GoFields) (a : Nat),
    a ∈ idsFields (mergeMaps dst src) → a ∈ idsFields dst ∨ a ∈ idsFields src
  | dst, .nil, a => fun h => Or.inl h
  | dst, .cons k v tl, a => by
      intro h
      rcases mergeMaps_ids (mergeOne dst k v) tl a h with h1 | h1
      · rcases mergeOne_ids dst k v a h1 with h2 | h2
        · exact Or.inl h2
        · exact Or.inr (by simp only [idsFields]; exact List.mem_append_left _ h2)
      · exact Or.inr (by simp only [idsFields]; exact List.mem_append_right _ h1)

/-- `mergeOne` introduces no map ids beyond the destination's and the
merged value's. -/
theorem mergeOne_ids : ∀ (dst : GoFields) (k : String) (v : GoVal) (a : Nat),
    a ∈ idsFields (mergeOne dst k v) → a ∈ idsFields dst ∨ a ∈ idsVal v
  | dst, k, .vmap sid sm, a => by
      intro h
      cases hd : fieldsGet dst k with
      | none =>
          simp only [mergeOne, hd] at h
          exact fieldsSet_ids dst k _ a h
      | some u =>
          cases u with
          | vmap did dm =>
              simp only [mergeOne, hd] at h
              rcases fieldsSet_ids dst k _ a h with h1 | h1
              · exact Or.inl h1
              · simp only [idsVal, List.mem_cons] at h1
                rcases h1 with h1 | h1
                · subst h1
                  exact Or.inl (fieldsGet_ids dst k _ hd a
                    (by simp only [idsVal]; exact List.mem_cons_self _ _))
                · rcases mergeMaps_ids dm sm a h1 with h2 | h2
                  · exact Or.inl (fieldsGet_ids dst k _ hd a
                      (by simp only [idsVal]; exact List.mem_cons_of_mem _ h2))
                  · exact Or.inr (by
                      simp only [idsVal]; exact List.mem_cons_of_mem _ h2)
          | vnull =>
              simp only [mergeOne, hd] at h
              exact fieldsSet_ids dst k _ a h
          | vbool b =>
              simp only [mergeOne, hd] at h
              exact fieldsSet_ids dst k _ a h
          | vint x =>
              simp only [mergeOne, hd] at h
              exact fieldsSet_ids dst k _ a h
          | vint64 x =>
              simp only [mergeOne, hd] at h
              exact fieldsSet_ids dst k _ a h
          | vuint64 x =>
              simp only [mergeOne, hd] at h
              exact fieldsSet_ids dst k _ a h
          | vfloat q =>
              simp only [mergeOne, hd] at h
              exact fieldsSet_ids dst k _ a h
          | vstr s =>
              simp only [mergeOne, hd] at h
              exact fieldsSet_ids dst k _ a h
          | varr xs =>
              simp only [mergeOne, hd] at h
              exact fieldsSet_ids dst k _ a h
          | vstrarr xs =>
              simp only [mergeOne, hd] at h
              exact fieldsSet_ids dst k _ a h
          | vanymap i am =>
              simp only [mergeOne, hd] at h
              exact fieldsSet_ids dst k _ a h
  | dst, k, .vnull, a => by
      intro h
      simp only [mergeOne] at h
      exact fieldsSet_ids dst k _ a h
  | dst, k, .vbool b, a => by
      intro h
      simp only [mergeOne] at h
      exact fieldsSet_ids dst k _ a h
  | dst, k, .vint x, a => by
      intro h
      simp only [mergeOne] at h
      exact fieldsSet_ids dst k _ a h
  | dst, k, .vint64 x, a => by
      intro h
      simp only [mergeOne] at h
      exact fieldsSet_ids dst k _ a h
  | dst, k, .vuint64 x, a => by
      intro h
      simp only [mergeOne] at h
      exact fieldsSet_ids dst k _ a h
  | dst, k, .vfloat q, a => by
      intro h
      simp only [mergeOne] at h
      exact fieldsSet_ids dst k _ a h
  | dst, k, .vstr s, a => by
      intro h
      simp only [mergeOne] at h
      exact fieldsSet_ids dst k _ a h
  | dst, k, .varr xs, a => by
      intro h
      simp only [mergeOne] at h
      exact fieldsSet_ids dst k _ a h
  | dst, k, .vstrarr xs, a => by
      intro h
      simp only [mergeOne] at h
      exact fieldsSet_ids dst k _ a h
  | dst, k, .vanymap i am, a => by
      intro h
      simp only [mergeOne] at h
      exact fieldsSet_ids dst k _ a h

end

/-- The map ids reachable from the values of an override list. -/
def overrideIds : List (String × GoVal) → List Nat
  | [] => []
  | (_, v) :: tl => idsVal v ++ overrideIds tl

/-- The `setNested` counter never decreases. -/
theorem setNestedSegs_counter_le : ∀ (segs : List String) (m : GoFields)
    (v : GoVal) (n : Nat), n ≤ (setNestedSegs m segs v n).2
  | [], _, _, n => Nat.le_refl n
  | [_], _, _, n => Nat.le_refl n
  | k :: k2 :: tl, m, v, n => by
      cases hg : fieldsGet m k with
      | some u =>
          cases u with
          | vmap id sub =>
              simp only [setNestedSegs, hg]
              exact setNestedSegs_counter_le (k2 :: tl) sub v n
          | vnull =>
              simp only [setNestedSegs, hg]
              have := setNestedSegs_counter_le (k2 :: tl) .nil v (n + 1)
              omega
          | vbool b =>
              simp only [setNestedSegs, hg]
              have := setNestedSegs_counter_le (k2 :: tl) .nil v (n + 1)
              omega
          | vint x =>
              simp only [setNestedSegs, hg]
              have := setNestedSegs_counter_le (k2 :: tl) .nil v (n + 1)
              omega
          | vint64 x =>
              simp only [setNestedSegs, hg]
              have := setNestedSegs_counter_le (k2 :: tl) .nil v (n + 1)
              omega
          | vuint64 x =>
              simp only [setNestedSegs, hg]
              have := setNestedSegs_counter_le (k2 :: tl) .nil v (n + 1)
              omega
          | vfloat q =>
              simp only [setNestedSegs, hg]
              have := setNestedSegs_counter_le (k2 :: tl) .nil v (n + 1)
              omega
          | vstr s =>
              simp only [setNestedSegs, hg]
              have := setNestedSegs_counter_le (k2 :: tl) .nil v (n + 1)
              omega
          | varr xs =>
              simp only [setNestedSegs, hg]
              have := setNestedSegs_counter_le (k2 :: tl) .nil v (n + 1)
              omega
          | vstrarr xs =>
              simp only [setNestedSegs, hg]
              have := setNestedSegs_counter_le (k2 :: tl) .nil v (n + 1)
              omega
          | vanymap i am =>
              simp only [setNestedSegs, hg]
              have := setNestedSegs_counter_le (k2 :: tl) .nil v (n + 1)
              omega
      | none =>
          simp only [setNestedSegs, hg]
          have := setNestedSegs_counter_le (k2 :: tl) .nil v (n + 1)
          omega

/-- Reduction of `setNestedSegs` on a path with at least two remaining
segments: either the next key holds a `map[string]any` (descend into it,
keeping its id) or a fresh map with id `n` replaces whatever is there. -/
theorem setNestedSegs_cons_eq (m : GoFields) (k k2 : String)
    (tl : List String) (v : GoVal) (n : Nat) :
    (∃ id sub, fieldsGet m k = some (.vmap id sub) ∧
       setNestedSegs m (k :: k2 :: tl) v n =
         (fieldsSet m k (.vmap id (setNestedSegs sub (k2 :: tl) v n).1),
          (setNestedSegs sub (k2 :: tl) v n).2)) ∨
    (setNestedSegs m (k :: k2 :: tl) v n =
       (fieldsSet m k (.vmap n (setNestedSegs .nil (k2 :: tl) v (n + 1)).1),
        (setNestedSegs .nil (k2 :: tl) v (n + 1)).2)) := by
  cases hg : fieldsGet m k with
  | some u =>
      cases u with
      | vmap id sub => exact Or.inl ⟨id, sub, rfl, by simp only [setNestedSegs, hg]⟩
      | vnull => exact Or.inr (by simp only [setNestedSegs, hg])
      | vbool b => exact Or.inr (by simp only [setNestedSegs, hg])
      | vint x => exact Or.inr (by simp only [setNestedSegs, hg])
      | vint64 x => exact Or.inr (by simp only [setNestedSegs, hg])
      | vuint64 x => exact Or.inr (by simp only [setNestedSegs, hg])
      | vfloat q => exact Or.inr (by simp only [setNestedSegs, hg])
      | vstr s => exact Or.inr (by simp only [setNestedSegs, hg])
      | varr xs => exact Or.inr (by simp only [setNestedSegs, hg])
      | vstrarr xs => exact Or.inr (by simp only [setNestedSegs, hg])
      | vanymap i am => exact Or.inr (by simp only [setNestedSegs, hg])
  | none => exact Or.inr (by simp only [setNestedSegs, hg])

/-- `setNestedSegs` introduces no map ids beyond the map's, the written
value's, and freshly allocated intermediate maps in `[n, n')`. -/
theorem setNestedSegs_ids : ∀ (segs : List String) (m : GoFields)
    (v : GoVal) (n a : Nat),
    a ∈ idsFields (setNestedSegs m segs v n).1 →
    a ∈ idsFields m ∨ a ∈ idsVal v ∨
      (n ≤ a ∧ a < (setNestedSegs m segs v n).2)
  | [], m, v, n, a => fun h => Or.inl h
  | [k], m, v, n, a => by
      intro h
      simp only [setNestedSegs] at h
      rcases fieldsSet_ids m k v a h with h1 | h1
      · exact Or.inl h1
      · exact Or.inr (Or.inl h1)
  | k :: k2 :: tl, m, v, n, a => by
      intro h
      rcases setNestedSegs_cons_eq m k k2 tl v n with ⟨id, sub, hg, heq⟩ | heq
      · rw [heq] at h ⊢
        rcases fieldsSet_ids m k _ a h with h1 | h1
        · exact Or.inl h1
        · simp only [idsVal, List.mem_cons] at h1
          rcases h1 with h1 | h1
          · subst h1
            exact Or.inl (fieldsGet_ids m k _ hg a
              (by simp only [idsVal]; exact List.mem_cons_self _ _))
          · rcases setNestedSegs_ids (k2 :: tl) sub v n a h1 with h2 | h2 | h2
            · exact Or.inl (fieldsGet_ids m k _ hg a
                (by simp only [idsVal]; exact List.mem_cons_of_mem _ h2))
            · exact Or.inr (Or.inl h2)
            · exact Or.inr (Or.inr h2)
      · rw [heq] at h ⊢
        rcases fieldsSet_ids m k _ a h with h1 | h1
        · exact Or.inl h1
        · simp only [idsVal, List.mem_cons] at h1
          rcases h1 with h1 | h1
          · refine Or.inr (Or.inr ⟨?_, ?_⟩) <;>
            · have := setNestedSegs_counter_le (k2 :: tl) .nil v (n + 1)
              omega
          · rcases setNestedSegs_ids (k2 :: tl) .nil v (n + 1) a h1 with h2 | h2 | h2
            · simp [idsFields] at h2
            · exact Or.inr (Or.inl h2)
            · exact Or.inr (Or.inr (by omega))

/-- The `expandDotKeys` counter never decreases. -/
theorem expandDotKeysAux_counter_le : ∀ (flat : List (String × GoVal))
    (acc : GoFields) (n : Nat), n ≤ (expandDotKeysAux acc flat n).2
  | [], _, n => Nat.le_refl n
  | (k, v) :: tl, acc, n => by
      simp only [expandDotKeysAux]
      have h1 := setNestedSegs_counter_le (goSplitDot k) acc v n
      have h2 := expandDotKeysAux_counter_le tl (setNested acc k v n).1
        (setNested acc k v n).2
      simp only [setNested] at h2 ⊢
      omega

/-- `expandDotKeysAux` introduces no map ids beyond the accumulator's, the
override values', and fresh intermediate maps in `[n, n')`. -/
theorem expandDotKeysAux_ids : ∀ (flat : List (String × GoVal))
    (acc : GoFields) (n a : Nat),
    a ∈ idsFields (expandDotKeysAux acc flat n).1 →
    a ∈ idsFields acc ∨ a ∈ overrideIds flat ∨
      (n ≤ a ∧ a < (expandDotKeysAux acc flat n).2)
  | [], acc, n, a => fun h => Or.inl h
  | (k, v) :: tl, acc, n, a => by
    intro h
    simp only [expandDotKeysAux] at h ⊢
    rcases expandDotKeysAux_ids tl (setNested acc k v n).1
        (setNested acc k v n).2 a h with h1 | h1 | h1
    · rcases setNestedSegs_ids (goSplitDot k) acc v n a
          (by simpa [setNested] using h1) with h2 | h2 | h2
      · exact Or.inl h2
      · exact Or.inr (Or.inl (by
          simp only [overrideIds]; exact List.mem_append_left _ h2))
      · refine Or.inr (Or.inr ⟨h2.1, ?_⟩)
        have := expandDotKeysAux_counter_le tl (setNested acc k v n).1
          (setNested acc k v n).2
        simp only [setNested] at *
        omega
    · exact Or.inr (Or.inl (by
        simp only [overrideIds]; exact List.mem_append_right _ h1))
    · refine Or.inr (Or.inr ⟨?_, h1.2⟩)
      have := setNestedSegs_counter_le (goSplitDot k) acc v n
      simp only [setNested] at *
      omega

/-- A heap write to a map object not reachable from a handle leaves the
handle (and hence every lookup on it) unchanged. -/
theorem Config.mut_eq_self (c : Config) (a : Nat) (h : a ∉ c.ids)
    (f : GoFields → GoFields) (g : GoAFields → GoAFields) :
    c.mut a f g = c := by
  simp only [Config.ids, List.mem_cons, not_or] at h
  simp only [Config.mut, mutFields_not_mem a f g c.values h.2,
    if_neg (Ne.symm h.1)]

/-- C5 counterexample: a handle whose tree holds a `map[any]any` node
(id `7`, reachable via `FromMap` per C6) returns that node *aliased* from
`All` — `deepCopyValue` passes `map[any]any` through its `default` branch
— so a heap write to the returned structure (id `7`) changes a subsequent
lookup on the original handle from `1` to `2`.  This refutes "the
structures returned by `All`/`GetSub`/`GetMap` are independent deep
copies, so mutating a returned map never changes lookups on the
original". -/
theorem claim_C5_counterexample :
    (7 : Nat) ∈ idsVal (Config.All
      ⟨3, .cons "a" (.vanymap 7 (.cons (.kstr "k") (.vint 1) .nil)) .nil⟩
      100).1 ∧
    Config.find
      ⟨3, .cons "a" (.vanymap 7 (.cons (.kstr "k") (.vint 1) .nil)) .nil⟩
      "a.k" = some (.vint 1) ∧
    Config.find (Config.mut
      ⟨3, .cons "a" (.vanymap 7 (.cons (.kstr "k") (.vint 1) .nil)) .nil⟩
      7 id (fun _ => .cons (.kstr "k") (.vint 2) .nil)) "a.k"
      = some (.vint 2) :=
  ⟨by decide, by decide, by decide⟩

/-- C5 amended: *for a handle whose tree contains only string-keyed
mappings* (no `map[any]any` nodes — the values `deepCopyValue` fully
copies), and a fresh id supply, the claim holds: the structures returned
by `All`, `GetSub` and `GetMap` carry only freshly allocated map ids, so a
heap write to any of them leaves the original handle — and hence every
lookup on it — unchanged; `All`'s copy holds exactly the original data;
and the handle returned by `WithOverrides` shares no map object with the
receiver (given that the caller's override values don't either), so
mutating the new handle never changes the receiver. -/
theorem claim_C5_amended (c : Config) (n : Nat) (ov : List (String × GoVal))
    (hsafe : stringKeyedFields c.values = true)
    (hb : ∀ a ∈ c.ids, a < n)
    (hov : ∀ a ∈ overrideIds ov, a ∉ c.ids) :
    (∀ a ∈ idsVal (c.All n).1, ∀ f g, c.mut a f g = c) ∧
    (eraseVal (c.All n).1 = eraseVal (.vmap c.rootId c.values)) ∧
    (∀ k sub, (c.GetSub k n).1 = some sub →
        ∀ a ∈ sub.ids, ∀ f g, c.mut a f g = c) ∧
    (∀ k m', (c.GetMap k n).1 = some m' →
        (∀ a ∈ idsVal m', ∀ f g, c.mut a f g = c) ∧
        (∃ id m, c.find k = some (.vmap id m) ∧
          eraseVal m' = eraseVal (.vmap id m))) ∧
    (∀ a ∈ ((c.WithOverrides ov n).1).ids, ∀ f g, c.mut a f g = c) := by
  have hnot : ∀ a, n ≤ a → a ∉ c.ids := fun a hna hmem => by
    have := hb a hmem; omega
  refine ⟨?_, ?_, ?_, ?_, ?_⟩
  · intro a ha f g
    apply Config.mut_eq_self
    simp only [Config.All, idsVal, List.mem_cons] at ha
    rcases ha with h1 | h1
    · exact hnot a (by omega)
    · have := deepCopyFields_ids_fresh c.values (n + 1) hsafe a h1
      exact hnot a (by omega)
  · simp only [Config.All, eraseVal]
    rw [deepCopyFields_erase c.values (n + 1)]
  · intro k sub hsub a ha f g
    apply Config.mut_eq_self
    cases hf : c.find k with
    | none => simp [Config.GetSub, hf] at hsub
    | some u =>
        cases u with
        | vmap id m =>
            simp only [Config.GetSub, hf, Option.some.injEq] at hsub
            have hm : stringKeyedVal (.vmap id m) = true := by
              refine findSegs_stringKeyed (goSplitDot k)
                (.vmap c.rootId c.values) _ ?_ hf
              simpa [stringKeyedVal] using hsafe
            simp only [stringKeyedVal] at hm
            rw [← hsub] at ha
            simp only [Config.ids, List.mem_cons] at ha
            rcases ha with h1 | h1
            · exact hnot a (by omega)
            · have := deepCopyFields_ids_fresh m (n + 1) hm a h1
              exact hnot a (by omega)
        | vnull => simp [Config.GetSub, hf] at hsub
        | vbool b => simp [Config.GetSub, hf] at hsub
        | vint x => simp [Config.GetSub, hf] at hsub
        | vint64 x => simp [Config.GetSub, hf] at hsub
        | vuint64 x => simp [Config.GetSub, hf] at hsub
        | vfloat q => simp [Config.GetSub, hf] at hsub
        | vstr s => simp [Config.GetSub, hf] at hsub
        | varr xs => simp [Config.GetSub, hf] at hsub
        | vstrarr xs => simp [Config.GetSub, hf] at hsub
        | vanymap i am => simp [Config.GetSub, hf] at hsub
  · intro k m' hm'
    cases hf : c.find k with
    | none => simp [Config.GetMap, hf] at hm'
    | some u =>
        cases u with
        | vmap id m =>
            simp only [Config.GetMap, hf, Option.some.injEq] at hm'
            have hm : stringKeyedVal (.vmap id m) = true := by
              refine findSegs_stringKeyed (goSplitDot k)
                (.vmap c.rootId c.values) _ ?_ hf
              simpa [stringKeyedVal] using hsafe
            simp only [stringKeyedVal] at hm
            constructor
            · intro a ha f g
              apply Config.mut_eq_self
              rw [← hm'] at ha
              simp only [idsVal, List.mem_cons] at ha
              rcases ha with h1 | h1
              · exact hnot a (by omega)
              · have := deepCopyFields_ids_fresh m (n + 1) hm a h1
                exact hnot a (by omega)
            · refine ⟨id, m, rfl, ?_⟩
              rw [← hm']
              simp only [eraseVal]
              rw [deepCopyFields_erase m (n + 1)]
        | vnull => simp [Config.GetMap, hf] at hm'
        | vbool b => simp [Config.GetMap, hf] at hm'
        | vint x => simp [Config.GetMap, hf] at hm'
        | vint64 x => simp [Config.GetMap, hf] at hm'
        | vuint64 x => simp [Config.GetMap, hf] at hm'
        | vfloat q => simp [Config.GetMap, hf] at hm'
        | vstr s => simp [Config.GetMap, hf] at hm'
        | varr xs => simp [Config.GetMap, hf] at hm'
        | vstrarr xs => simp [Config.GetMap, hf] at hm'
        | vanymap i am => simp [Config.GetMap, hf] at hm'
  · intro a ha f g
    apply Config.mut_eq_self
    simp only [Config.WithOverrides, Config.ids, List.mem_cons] at ha
    rcases ha with h1 | h1
    · exact hnot a (by omega)
    · rcases mergeMaps_ids _ _ a h1 with h2 | h2
      · have := deepCopyFields_ids_fresh c.values (n + 1) hsafe a h2
        exact hnot a (by omega)
      · rcases expandDotKeysAux_ids ov .nil
            (deepCopyFields c.values (n + 1)).2 a
            (by simpa [expandDotKeys] using h2) with h3 | h3 | h3
        · simp [idsFields] at h3
        · exact hov a h3
        · have := deepCopyFields_counter_le c.values (n + 1)
          exact hnot a (by omega)

/-- Witness for the amended C5 on a concrete handle with fresh counter 10:
a heap write at the fresh id 10 (the id of the map `All` returns) leaves
the handle unchanged, and `All`'s copy erases to the original tree. -/
theorem claim_C5_witness :
    Config.mut ⟨0, .cons "a" (.vmap 1 (.cons "b" (.vint 2) .nil)) .nil⟩
      10 id id = ⟨0, .cons "a" (.vmap 1 (.cons "b" (.vint 2) .nil)) .nil⟩ ∧
    eraseVal (Config.All
      ⟨0, .cons "a" (.vmap 1 (.cons "b" (.vint 2) .nil)) .nil⟩ 10).1
      = eraseVal (.vmap 0 (.cons "a" (.vmap 1 (.cons "b" (.vint 2) .nil))
          .nil)) :=
  ⟨(claim_C5_amended ⟨0, .cons "a" (.vmap 1 (.cons "b" (.vint 2) .nil)) .nil⟩
      10 [("a.c", .vint 3)] (by decide) (by decide) (by decide)).1
      10 (by decide) id id,
   (claim_C5_amended ⟨0, .cons "a" (.vmap 1 (.cons "b" (.vint 2) .nil)) .nil⟩
      10 [("a.c", .vint 3)] (by decide) (by decide) (by decide)).2.1⟩
